import Mathlib

/-!
# Verification of graphql-core-legacy core components

A shallow embedding, in Lean 4, of the pieces of graphql-core-legacy that the
specification's claims are about:

* `graphql/type/typemap.py` — the `GraphQLTypeMap` closure algorithm
  (`reducer`), the interface-implementations index, `get_possible_types`,
  `is_possible_type` and `assert_object_implements_interface`;
* the lexer of `graphql/language/lexer.py` together with the syntax-error
  rendering — only the lexer's test file is part of the snapshot, so those
  definitions are modelled from the specification (§4.1) and are marked
  `Modelled from the spec:` in their doc comments;
* `graphql/validation/rules/unique_fragment_names.py`.

Python object references between named types may form cycles, so named types
are identified by an object identity (`Nat`) into an ambient environment
`List NamedDef`; a reference *is* its identity.  Python's `OrderedDict` is an
association list extended on the right.  The reducer's general recursion is
embedded with a structural fuel parameter, decremented on every call; running
out of fuel is a distinguished outcome (`Err.outOfFuel`) and we prove that a
computable fuel bound never reaches it, which is the embedding of "the
construction terminates".
-/

namespace GraphQLCoreV

/-- A type reference (`GraphQLType`): a named type by object identity, or a
`GraphQLList` / `GraphQLNonNull` wrapper. -/
inductive GType where
| named (id : Nat)
| list (ofType : GType)
| nonNull (ofType : GType)
deriving DecidableEq, Repr

/-- A field of an object or interface type: its result type plus its
arguments; each argument (`GraphQLArgument`) carries a type. -/
structure GField where
  fieldType : GType
  args : List (String × GType)
deriving DecidableEq, Repr

/-- A named type definition (`GraphQLNamedType`).  Object types list the
interfaces they implement, unions list their member types; input-object
fields (`GraphQLInputObjectField`) carry just a type. -/
inductive NamedDef where
| scalar (name : String)
| enum (name : String)
| object (name : String) (interfaces : List Nat) (fields : List (String × GField))
| interface (name : String) (fields : List (String × GField))
| union (name : String) (types : List Nat)
| inputObject (name : String) (fields : List (String × GType))
deriving DecidableEq, Repr

/-- The `.name` attribute of a named type. -/
def NamedDef.name : NamedDef → String
| .scalar n => n
| .enum n => n
| .object n _ _ => n
| .interface n _ => n
| .union n _ => n
| .inputObject n _ => n

/-- Innermost named type of a possibly wrapped type (`get_named_type`). -/
def GType.core : GType → Nat
| .named id => id
| .list t => t.core
| .nonNull t => t.core

/-- The type map under construction: an ordered association list from type
name to the identity of the stored definition (`OrderedDict`, new entries
appended on the right). -/
abbrev TMap := List (String × Nat)

/-- `name in map_` / `map_[name]` on the ordered map: first entry with the
given key. -/
def lookupTM : TMap → String → Option Nat
| [], _ => none
| (k, v) :: rest, n => if k = n then some v else lookupTM rest n

/-- Modelled from the spec: `is_input_type` (from `graphql/type/definition.py`,
which is not part of the snapshot).  §4.2: input types are "scalars, enums,
input-objects, lists/non-null thereof" — the wrappers are unwrapped to the
innermost named type. -/
def isInputType (env : List NamedDef) (t : GType) : Bool :=
  match env.get? t.core with
  | some (.scalar _) => true
  | some (.enum _) => true
  | some (.inputObject _ _) => true
  | _ => false

/-- Modelled from the spec: `is_output_type` (from
`graphql/type/definition.py`, not part of the snapshot).  §4.2: output types
are "scalars, objects, interfaces, unions, enums, lists/non-null thereof". -/
def isOutputType (env : List NamedDef) (t : GType) : Bool :=
  match env.get? t.core with
  | some (.scalar _) => true
  | some (.enum _) => true
  | some (.object _ _ _) => true
  | some (.interface _ _) => true
  | some (.union _ _) => true
  | _ => false

/-- `str()` of a possibly wrapped type, used inside assertion messages
(`"[T]"`, `"T!"`, and a named type prints as its name). -/
def printGType (env : List NamedDef) : GType → String
| .named id =>
  match env.get? id with
  | some d => d.name
  | none => ""
| .list t => "[" ++ printGType env t ++ "]"
| .nonNull t => printGType env t ++ "!"

/-- Outcome of a failing construction step: a Python `AssertionError` with its
message, or fuel exhaustion of the embedding (never reached, see
`reduceStep_no_outOfFuel`). -/
inductive Err where
| outOfFuel
| assertion (msg : String)
deriving DecidableEq, Repr

/-- The duplicate-name assertion message of `GraphQLTypeMap.reducer`. -/
def uniqueMsg (n : String) : String :=
  "Schema must contain unique named types but contains multiple types named \"" ++ n ++ "\"."

/-- One work item of the reducer: a (possibly absent, possibly wrapped) type
to reduce, or one of the reducer's interior loops — over a list of type
identities (union members / object interfaces), over object/interface
fields, over a field's arguments, or over input-object fields.  The loops of
`GraphQLTypeMap.reducer` are defunctionalised this way so that the whole
recursion is structural on the fuel. -/
inductive RTask where
| typ (t : Option GType)
| typeList (ids : List Nat)
| fieldList (tname : String) (fields : List (String × GField))
| argList (tname fn : String) (args : List (String × GType))
| inputFieldList (tname : String) (fields : List (String × GType))

/-- `GraphQLTypeMap.reducer` (typemap.py lines 78–144).  `.typ` mirrors the
function body: skip absent types, unwrap `GraphQLList`/`GraphQLNonNull`,
assert identity on a name already present, otherwise insert and recurse into
union members, object interfaces, and the fields (with the input/output-type
assertions and, for object/interface fields, the argument assertions and
argument types) — the other task kinds are its `for` loops.  The two
`isinstance` assertions on `GraphQLInputObjectField` and `GraphQLArgument`
hold by construction here, since the embedding is typed. -/
def reduceStep (env : List NamedDef) : Nat → TMap → RTask → Except Err TMap
| 0, _, _ => .error .outOfFuel
| fuel+1, m, task =>
  match task with
  | .typ none => .ok m
  | .typ (some (.list u)) => reduceStep env fuel m (.typ (some u))
  | .typ (some (.nonNull u)) => reduceStep env fuel m (.typ (some u))
  | .typ (some (.named id)) =>
    match env.get? id with
    | none => .ok m
    | some d =>
      match lookupTM m d.name with
      | some id' =>
        if id' = id then .ok m
        else .error (.assertion (uniqueMsg d.name))
      | none =>
        match d with
        | .scalar nm => .ok (m ++ [(nm, id)])
        | .enum nm => .ok (m ++ [(nm, id)])
        | .union nm ts => reduceStep env fuel (m ++ [(nm, id)]) (.typeList ts)
        | .object nm intfs fields =>
          match reduceStep env fuel (m ++ [(nm, id)]) (.typeList intfs) with
          | .error e => .error e
          | .ok m2 => reduceStep env fuel m2 (.fieldList nm fields)
        | .interface nm fields => reduceStep env fuel (m ++ [(nm, id)]) (.fieldList nm fields)
        | .inputObject nm fields => reduceStep env fuel (m ++ [(nm, id)]) (.inputFieldList nm fields)
  | .typeList [] => .ok m
  | .typeList (id :: rest) =>
    match reduceStep env fuel m (.typ (some (.named id))) with
    | .error e => .error e
    | .ok m' => reduceStep env fuel m' (.typeList rest)
  | .fieldList _ [] => .ok m
  | .fieldList tname ((fn, f) :: rest) =>
    if isOutputType env f.fieldType then
      match reduceStep env fuel m (.argList tname fn f.args) with
      | .error e => .error e
      | .ok m' =>
        match reduceStep env fuel m' (.typ (some f.fieldType)) with
        | .error e => .error e
        | .ok m'' => reduceStep env fuel m'' (.fieldList tname rest)
    else .error (.assertion (tname ++ "." ++ fn ++ " field type must be Output Type but got: " ++ printGType env f.fieldType ++ "."))
  | .argList _ _ [] => .ok m
  | .argList tname fn ((an, a) :: rest) =>
    if isInputType env a then
      match reduceStep env fuel m (.typ (some a)) with
      | .error e => .error e
      | .ok m' => reduceStep env fuel m' (.argList tname fn rest)
    else .error (.assertion (tname ++ "." ++ fn ++ "(" ++ an ++ ":) argument type must be Input Type but got: " ++ printGType env a ++ "."))
  | .inputFieldList _ [] => .ok m
  | .inputFieldList tname ((fn, t) :: rest) =>
    if isInputType env t then
      match reduceStep env fuel m (.typ (some t)) with
      | .error e => .error e
      | .ok m' => reduceStep env fuel m' (.inputFieldList tname rest)
    else .error (.assertion (tname ++ "." ++ fn ++ " field type must be Input Type but got: " ++ printGType env t ++ "."))

/-- `reduce(self.reducer, types, OrderedDict())` — fold the reducer over the
root list (roots may be absent, Python `None`). -/
def reduceRoots (env : List NamedDef) (fuel : Nat) : TMap → List (Option GType) → Except Err TMap
| m, [] => .ok m
| m, t :: rest =>
  match reduceStep env fuel m (.typ t) with
  | .error e => .error e
  | .ok m' => reduceRoots env fuel m' rest

/-- Structural size of a wrapped type (number of wrappers). -/
def gsize : GType → Nat
| .named _ => 0
| .list u => gsize u + 1
| .nonNull u => gsize u + 1

/-- Fuel cost a single task contributes at its own call (not counting the
names it may insert). -/
def taskW : RTask → Nat
| .typ none => 1
| .typ (some t) => gsize t + 2
| .typeList l => 3 * l.length + 1
| .argList _ _ l => (l.map (fun p => gsize p.2 + 4)).sum + 1
| .fieldList _ l => (l.map (fun p => (p.2.args.map (fun q => gsize q.2 + 4)).sum + 1 + gsize p.2.fieldType + 4)).sum + 1
| .inputFieldList _ l => (l.map (fun p => gsize p.2 + 4)).sum + 1

/-- Largest task cost any single definition's body can launch. -/
def defW : NamedDef → Nat
| .scalar _ => 1
| .enum _ => 1
| .union _ ts => taskW (.typeList ts) + 1
| .object _ intfs fields => taskW (.typeList intfs) + taskW (.fieldList "" fields) + 1
| .interface _ fields => taskW (.fieldList "" fields) + 1
| .inputObject _ fields => taskW (.inputFieldList "" fields) + 1

/-- A bound dominating every task cost a definition of `env` can launch. -/
def envW (env : List NamedDef) : Nat :=
  (env.map defW).foldr max 0 + 1

/-- Enough fuel for the whole construction from `env` and `roots`: the
per-name budget `envW env` once per (at most `env.length`) insertable name,
plus the cost of the root tasks themselves. -/
def totalFuel (env : List NamedDef) (roots : List (Option GType)) : Nat :=
  envW env * (env.length + 1) + (roots.map (fun t => taskW (.typ t))).sum + 1

/-- `GraphQLTypeMap.__init__`'s closure phase: fold the reducer over the root
types starting from the empty ordered map. -/
def buildTypeMap (env : List NamedDef) (roots : List (Option GType)) : Except Err TMap :=
  reduceRoots env (totalFuel env roots) [] roots

/-- The keys of the ordered map, in insertion order. -/
def keys (m : TMap) : List String :=
  m.map Prod.fst

/-- `m'` is `m` with zero or more entries appended on the right — the only way
the reducer ever modifies the map. -/
def MapExt (m m' : TMap) : Prop :=
  ∃ e, m' = m ++ e

theorem mapExt_refl {m : TMap} : MapExt m m :=
  ⟨[], (List.append_nil m).symm⟩

theorem MapExt.trans {a b c : TMap} (h1 : MapExt a b) (h2 : MapExt b c) : MapExt a c := by
  obtain ⟨e1, rfl⟩ := h1
  obtain ⟨e2, rfl⟩ := h2
  exact ⟨e1 ++ e2, List.append_assoc a e1 e2⟩

theorem mapExt_append {m : TMap} (e : TMap) : MapExt m (m ++ e) :=
  ⟨e, Eq.refl (m ++ e)⟩

theorem lookupTM_append_left {m : TMap} {n : String} {v : Nat} (e : TMap)
    (h : lookupTM m n = some v) : lookupTM (m ++ e) n = some v := by
  induction m with
  | nil => simp [lookupTM] at h
  | cons p rest ih =>
    obtain ⟨k, w⟩ := p
    by_cases hk : k = n
    · simpa [lookupTM, hk] using (by simpa [lookupTM, hk] using h)
    · simp only [lookupTM, hk, if_false, List.cons_append] at h ⊢
      exact ih h

theorem lookupTM_ext {m m' : TMap} {n : String} {v : Nat}
    (hext : MapExt m m') (h : lookupTM m n = some v) : lookupTM m' n = some v := by
  obtain ⟨e, rfl⟩ := hext
  exact lookupTM_append_left e h

theorem lookupTM_append_self {m : TMap} {n : String} (id : Nat)
    (h : lookupTM m n = none) : lookupTM (m ++ [(n, id)]) n = some id := by
  induction m with
  | nil => simp [lookupTM]
  | cons p rest ih =>
    obtain ⟨k, w⟩ := p
    by_cases hk : k = n
    · simp [lookupTM, hk] at h
    · simp only [lookupTM, hk, if_false, List.cons_append] at h ⊢
      exact ih h

theorem lookupTM_mem {m : TMap} {n : String} {v : Nat}
    (h : lookupTM m n = some v) : (n, v) ∈ m := by
  induction m with
  | nil => simp [lookupTM] at h
  | cons p rest ih =>
    obtain ⟨k, w⟩ := p
    by_cases hk : k = n
    · simp only [lookupTM, hk, if_true, Option.some.injEq] at h
      subst hk; subst h; exact List.mem_cons_self _ _
    · simp only [lookupTM, hk, if_false] at h
      exact List.mem_cons_of_mem _ (ih h)

theorem lookupTM_none_key {m : TMap} {n : String}
    (h : lookupTM m n = none) : n ∉ keys m := by
  induction m with
  | nil => simp [keys]
  | cons p rest ih =>
    obtain ⟨k, w⟩ := p
    by_cases hk : k = n
    · simp [lookupTM, hk] at h
    · simp only [lookupTM, hk, if_false] at h
      simp only [keys, List.map_cons, List.mem_cons]
      rintro (h1 | h1)
      · exact hk h1.symm
      · exact (ih h) (by simpa [keys] using h1)

/-- The reducer only appends to the map: any successful step yields an
extension of its input map. -/
theorem reduceStep_ext (env : List NamedDef) :
    ∀ fuel m task m', reduceStep env fuel m task = .ok m' → MapExt m m' := by
  intro fuel
  induction fuel with
  | zero => intro m task m' h; simp [reduceStep] at h
  | succ fuel ih =>
    intro m task m' h
    cases task with
    | typ t =>
      cases t with
      | none => simp only [reduceStep, Except.ok.injEq] at h; subst h; exact mapExt_refl
      | some t =>
        cases t with
        | list u => exact ih m (.typ (some u)) m' h
        | nonNull u => exact ih m (.typ (some u)) m' h
        | named id =>
          simp only [reduceStep] at h
          split at h
          · simp only [Except.ok.injEq] at h; subst h; exact mapExt_refl
          · split at h
            · split at h
              · simp only [Except.ok.injEq] at h; subst h; exact mapExt_refl
              · simp at h
            · split at h
              · simp only [Except.ok.injEq] at h; subst h; exact mapExt_append _
              · simp only [Except.ok.injEq] at h; subst h; exact mapExt_append _
              · exact (mapExt_append _).trans (ih _ _ _ h)
              · split at h
                · simp at h
                · next m2 h1 =>
                  exact ((mapExt_append _).trans (ih _ _ _ h1)).trans (ih _ _ _ h)
              · exact (mapExt_append _).trans (ih _ _ _ h)
              · exact (mapExt_append _).trans (ih _ _ _ h)
    | typeList ids =>
      cases ids with
      | nil => simp only [reduceStep, Except.ok.injEq] at h; subst h; exact mapExt_refl
      | cons id rest =>
        simp only [reduceStep] at h
        split at h
        · simp at h
        · next m1 h1 => exact (ih _ _ _ h1).trans (ih _ _ _ h)
    | fieldList tname fields =>
      cases fields with
      | nil => simp only [reduceStep, Except.ok.injEq] at h; subst h; exact mapExt_refl
      | cons p rest =>
        obtain ⟨fn, f⟩ := p
        simp only [reduceStep] at h
        split at h
        · split at h
          · simp at h
          · next m1 h1 =>
            split at h
            · simp at h
            · next m2 h2 =>
              exact ((ih _ _ _ h1).trans (ih _ _ _ h2)).trans (ih _ _ _ h)
        · simp at h
    | argList tname fn args =>
      cases args with
      | nil => simp only [reduceStep, Except.ok.injEq] at h; subst h; exact mapExt_refl
      | cons p rest =>
        obtain ⟨an, a⟩ := p
        simp only [reduceStep] at h
        split at h
        · split at h
          · simp at h
          · next m1 h1 => exact (ih _ _ _ h1).trans (ih _ _ _ h)
        · simp at h
    | inputFieldList tname fields =>
      cases fields with
      | nil => simp only [reduceStep, Except.ok.injEq] at h; subst h; exact mapExt_refl
      | cons p rest =>
        obtain ⟨fn, t⟩ := p
        simp only [reduceStep] at h
        split at h
        · split at h
          · simp at h
          · next m1 h1 => exact (ih _ _ _ h1).trans (ih _ _ _ h)
        · simp at h

/-- Names of `env` definitions whose name is not yet a key of `m`: the count
that strictly drops at every insertion. -/
def unmapped (env : List NamedDef) (m : TMap) : Nat :=
  (((env.map NamedDef.name).dedup).filter (fun n => (lookupTM m n).isNone)).length

theorem lookupTM_isNone_of_ext {m m' : TMap} (hext : MapExt m m') {n : String}
    (h : (lookupTM m' n).isNone = true) : (lookupTM m n).isNone = true := by
  cases hl : lookupTM m n with
  | none => rfl
  | some v => rw [lookupTM_ext hext hl] at h; simp at h

theorem filter_sub {α} {p q : α → Bool} (l : List α) (h : ∀ a, p a = true → q a = true) :
    List.Sublist (l.filter p) (l.filter q) := by
  induction l with
  | nil => simp
  | cons a l ih =>
    cases hp : p a with
    | true =>
      rw [List.filter_cons_of_pos hp, List.filter_cons_of_pos (h a hp)]
      exact ih.cons₂ a
    | false =>
      rw [List.filter_cons_of_neg (by simp [hp])]
      cases hq : q a with
      | true => rw [List.filter_cons_of_pos hq]; exact ih.cons a
      | false => rw [List.filter_cons_of_neg (by simp [hq])]; exact ih

theorem unmapped_le_of_ext (env : List NamedDef) {m m' : TMap} (hext : MapExt m m') :
    unmapped env m' ≤ unmapped env m := by
  exact (filter_sub _ (fun n => lookupTM_isNone_of_ext hext)).length_le

theorem unmapped_insert_lt (env : List NamedDef) {m : TMap} {id : Nat} {d : NamedDef}
    (hd : env.get? id = some d) (hl : lookupTM m d.name = none) :
    unmapped env (m ++ [(d.name, id)]) < unmapped env m := by
  have hmem : d.name ∈ (env.map NamedDef.name).dedup := by
    rw [List.mem_dedup]
    exact List.mem_map_of_mem _ (List.get?_mem hd)
  have hsub := filter_sub (p := fun n => (lookupTM (m ++ [(d.name, id)]) n).isNone)
    (q := fun n => (lookupTM m n).isNone) ((env.map NamedDef.name).dedup)
    (fun n => lookupTM_isNone_of_ext (mapExt_append _))
  refine Nat.lt_of_le_of_ne hsub.length_le (fun heq => ?_)
  have hfeq := hsub.eq_of_length heq
  have h1 : d.name ∈ ((env.map NamedDef.name).dedup).filter
      (fun n => (lookupTM (m ++ [(d.name, id)]) n).isNone) := by
    rw [hfeq]
    exact List.mem_filter.mpr ⟨hmem, by simp [hl]⟩
  have h2 := (List.mem_filter.mp h1).2
  rw [lookupTM_append_self id hl] at h2
  simp at h2

theorem unmapped_le_len (env : List NamedDef) (m : TMap) : unmapped env m ≤ env.length := by
  calc unmapped env m ≤ ((env.map NamedDef.name).dedup).length :=
        (List.filter_sublist _).length_le
  _ ≤ (env.map NamedDef.name).length := (List.dedup_sublist _).length_le
  _ = env.length := List.length_map _ _

theorem taskW_pos (task : RTask) : 1 ≤ taskW task := by
  cases task with
  | typ t => cases t <;> simp [taskW]
  | typeList l => simp [taskW]
  | fieldList tn l => simp [taskW]
  | argList tn fn l => simp [taskW]
  | inputFieldList tn l => simp [taskW]

theorem le_foldr_max {l : List Nat} {a : Nat} (h : a ∈ l) : a ≤ l.foldr max 0 := by
  induction l with
  | nil => cases h
  | cons b l ih =>
    rcases List.mem_cons.mp h with h1 | h1
    · subst h1; simp only [List.foldr_cons]; exact Nat.le_max_left _ _
    · simp only [List.foldr_cons]; exact le_trans (ih h1) (Nat.le_max_right _ _)

theorem defW_le_envW {env : List NamedDef} {d : NamedDef} (h : d ∈ env) :
    defW d + 1 ≤ envW env := by
  unfold envW
  have := le_foldr_max (List.mem_map_of_mem defW h)
  omega

theorem fuel_insert {W u u' c fuel : Nat} (hu : u' < u) (hc : c + 2 ≤ W)
    (h : W * u + 2 < fuel + 1) : W * u' + c < fuel := by
  have h1 : W * u' + W ≤ W * u := by
    have h2 : W * (u' + 1) ≤ W * u := mul_le_mul_left' hu W
    calc W * u' + W = W * (u' + 1) := by ring
    _ ≤ W * u := h2
  omega

theorem fuel_walk {W u u' c c' fuel : Nat} (hu : u' ≤ u) (hcc : c' < c)
    (h : W * u + c < fuel + 1) : W * u' + c' < fuel := by
  have h1 : W * u' ≤ W * u := mul_le_mul_left' hu W
  omega

theorem mul_succ_le {W u u' : Nat} (hu : u' < u) : W * u' + W ≤ W * u := by
  have h2 : W * (u' + 1) ≤ W * u := mul_le_mul_left' hu W
  calc W * u' + W = W * (u' + 1) := by ring
  _ ≤ W * u := h2

/-- With the fuel bound of `totalFuel` still available, the reducer never runs
out of fuel: the embedding of "the recursive construction terminates". -/
theorem reduceStep_no_outOfFuel (env : List NamedDef) :
    ∀ fuel m task, envW env * unmapped env m + taskW task < fuel →
      reduceStep env fuel m task ≠ .error .outOfFuel := by
  intro fuel
  induction fuel with
  | zero => intro m task hlt h; omega
  | succ fuel ih =>
    intro m task hlt h
    cases task with
    | typ t =>
      cases t with
      | none => simp [reduceStep] at h
      | some t =>
        cases t with
        | list u =>
          refine ih m (.typ (some u)) ?_ h
          simp only [taskW, gsize] at hlt ⊢
          omega
        | nonNull u =>
          refine ih m (.typ (some u)) ?_ h
          simp only [taskW, gsize] at hlt ⊢
          omega
        | named id =>
          simp only [taskW, gsize] at hlt
          simp only [reduceStep] at h
          split at h
          · simp at h
          · next d henv =>
            split at h
            · split at h
              · simp at h
              · simp at h
            · next hl =>
              have hW := defW_le_envW (List.get?_mem henv)
              split at h
              · simp at h
              · simp at h
              · next nm ts =>
                have hu := unmapped_insert_lt env henv hl
                simp only [NamedDef.name] at hu
                have hmul := mul_succ_le (W := envW env) hu
                refine ih _ (.typeList ts) ?_ h
                simp only [defW] at hW
                omega
              · next nm intfs fields =>
                have hu := unmapped_insert_lt env henv hl
                simp only [NamedDef.name] at hu
                have hmul := mul_succ_le (W := envW env) hu
                simp only [defW, taskW] at hW
                split at h
                · next e h1 =>
                  have he : e = Err.outOfFuel := by simpa using h
                  subst he
                  refine absurd h1 (ih _ (.typeList intfs) ?_)
                  simp only [taskW]
                  omega
                · next m2 h1 =>
                  have hext := reduceStep_ext env fuel _ _ _ h1
                  have hu2 : unmapped env m2 ≤ unmapped env (m ++ [(nm, id)]) :=
                    unmapped_le_of_ext env hext
                  have hmul2 : envW env * unmapped env m2 ≤
                      envW env * unmapped env (m ++ [(nm, id)]) :=
                    mul_le_mul_left' hu2 _
                  refine ih _ (.fieldList nm fields) ?_ h
                  simp only [taskW]
                  omega
              · next nm fields =>
                have hu := unmapped_insert_lt env henv hl
                simp only [NamedDef.name] at hu
                have hmul := mul_succ_le (W := envW env) hu
                refine ih _ (.fieldList nm fields) ?_ h
                simp only [defW, taskW] at hW
                simp only [taskW]
                omega
              · next nm fields =>
                have hu := unmapped_insert_lt env henv hl
                simp only [NamedDef.name] at hu
                have hmul := mul_succ_le (W := envW env) hu
                refine ih _ (.inputFieldList nm fields) ?_ h
                simp only [defW, taskW] at hW
                simp only [taskW]
                omega
    | typeList ids =>
      cases ids with
      | nil => simp [reduceStep] at h
      | cons id rest =>
        simp only [taskW, List.length_cons] at hlt
        simp only [reduceStep] at h
        split at h
        · next e h1 =>
          have he : e = Err.outOfFuel := by simpa using h
          subst he
          refine absurd h1 (ih _ (.typ (some (.named id))) ?_)
          simp only [taskW, gsize]
          omega
        · next m1 h1 =>
          have hext := reduceStep_ext env fuel _ _ _ h1
          have hmul : envW env * unmapped env m1 ≤ envW env * unmapped env m :=
            mul_le_mul_left' (unmapped_le_of_ext env hext) _
          refine ih _ (.typeList rest) ?_ h
          simp only [taskW]
          omega
    | fieldList tname fields =>
      cases fields with
      | nil => simp [reduceStep] at h
      | cons p rest =>
        obtain ⟨fn, f⟩ := p
        simp only [taskW, List.map_cons, List.sum_cons] at hlt
        simp only [reduceStep] at h
        split at h
        · split at h
          · next e h1 =>
            have he : e = Err.outOfFuel := by simpa using h
            subst he
            refine absurd h1 (ih _ (.argList tname fn f.args) ?_)
            simp only [taskW]
            omega
          · next m1 h1 =>
            have hext := reduceStep_ext env fuel _ _ _ h1
            have hmul : envW env * unmapped env m1 ≤ envW env * unmapped env m :=
              mul_le_mul_left' (unmapped_le_of_ext env hext) _
            split at h
            · next e h2 =>
              have he : e = Err.outOfFuel := by simpa using h
              subst he
              refine absurd h2 (ih _ (.typ (some f.fieldType)) ?_)
              simp only [taskW]
              omega
            · next m2 h2 =>
              have hext2 := reduceStep_ext env fuel _ _ _ h2
              have hmul2 : envW env * unmapped env m2 ≤ envW env * unmapped env m :=
                mul_le_mul_left'
                  (le_trans (unmapped_le_of_ext env hext2) (unmapped_le_of_ext env hext)) _
              refine ih _ (.fieldList tname rest) ?_ h
              simp only [taskW]
              omega
        · simp at h
    | argList tname fn args =>
      cases args with
      | nil => simp [reduceStep] at h
      | cons p rest =>
        obtain ⟨an, a⟩ := p
        simp only [taskW, List.map_cons, List.sum_cons] at hlt
        simp only [reduceStep] at h
        split at h
        · split at h
          · next e h1 =>
            have he : e = Err.outOfFuel := by simpa using h
            subst he
            refine absurd h1 (ih _ (.typ (some a)) ?_)
            simp only [taskW]
            omega
          · next m1 h1 =>
            have hext := reduceStep_ext env fuel _ _ _ h1
            have hmul : envW env * unmapped env m1 ≤ envW env * unmapped env m :=
              mul_le_mul_left' (unmapped_le_of_ext env hext) _
            refine ih _ (.argList tname fn rest) ?_ h
            simp only [taskW]
            omega
        · simp at h
    | inputFieldList tname fields =>
      cases fields with
      | nil => simp [reduceStep] at h
      | cons p rest =>
        obtain ⟨fn, t⟩ := p
        simp only [taskW, List.map_cons, List.sum_cons] at hlt
        simp only [reduceStep] at h
        split at h
        · split at h
          · next e h1 =>
            have he : e = Err.outOfFuel := by simpa using h
            subst he
            refine absurd h1 (ih _ (.typ (some t)) ?_)
            simp only [taskW]
            omega
          · next m1 h1 =>
            have hext := reduceStep_ext env fuel _ _ _ h1
            have hmul : envW env * unmapped env m1 ≤ envW env * unmapped env m :=
              mul_le_mul_left' (unmapped_le_of_ext env hext) _
            refine ih _ (.inputFieldList tname rest) ?_ h
            simp only [taskW]
            omega
        · simp at h

/-- The named types directly referenced by the fields of an object or
interface type: every argument's innermost named type and every field
type's innermost named type. -/
def fieldRefs : List (String × GField) → List Nat
| [] => []
| p :: rest => p.2.args.map (fun q => q.2.core) ++ [p.2.fieldType.core] ++ fieldRefs rest

/-- The named types a definition directly references, exactly along the edges
the reducer recurses into: union members, object interfaces, field types and
(for object/interface fields) argument types, input-object field types. -/
def NamedDef.refs : NamedDef → List Nat
| .scalar _ => []
| .enum _ => []
| .union _ ts => ts
| .object _ intfs fields => intfs ++ fieldRefs fields
| .interface _ fields => fieldRefs fields
| .inputObject _ fields => fields.map (fun p => p.2.core)

/-- The named types a task mentions directly (before recursing into their own
definitions). -/
def taskCores : RTask → List Nat
| .typ none => []
| .typ (some t) => [t.core]
| .typeList ids => ids
| .fieldList _ fields => fieldRefs fields
| .argList _ _ args => args.map (fun p => p.2.core)
| .inputFieldList _ fields => fields.map (fun p => p.2.core)

/-- After a successful step, every named type the task mentions that has a
definition is present in the resulting map under its own name, mapped to its
own identity. -/
theorem reduceStep_cores (env : List NamedDef) :
    ∀ fuel m task m', reduceStep env fuel m task = .ok m' →
      ∀ c, c ∈ taskCores task → ∀ dc, env.get? c = some dc →
        lookupTM m' dc.name = some c := by
  intro fuel
  induction fuel with
  | zero => intro m task m' h; simp [reduceStep] at h
  | succ fuel ih =>
    intro m task m' h c hc dc hdc
    cases task with
    | typ t =>
      cases t with
      | none => simp [taskCores] at hc
      | some t =>
        cases t with
        | list u =>
          simp only [taskCores, GType.core, List.mem_singleton] at hc
          exact ih m (.typ (some u)) m' h c (by simp [taskCores, hc]) dc hdc
        | nonNull u =>
          simp only [taskCores, GType.core, List.mem_singleton] at hc
          exact ih m (.typ (some u)) m' h c (by simp [taskCores, hc]) dc hdc
        | named id =>
          simp only [taskCores, GType.core, List.mem_singleton] at hc
          subst hc
          simp only [reduceStep] at h
          split at h
          · next henv => rw [henv] at hdc; cases hdc
          · next d henv =>
            rw [henv] at hdc
            injection hdc with hdc'
            subst hdc'
            split at h
            · next id' hl =>
              split at h
              · next hid =>
                subst hid
                simp only [Except.ok.injEq] at h
                subst h
                exact hl
              · simp at h
            · next hl =>
              have hself : lookupTM (m ++ [(d.name, c)]) d.name = some c :=
                lookupTM_append_self c hl
              split at h
              · next nm =>
                simp only [Except.ok.injEq] at h
                subst h
                simpa [NamedDef.name] using hself
              · next nm =>
                simp only [Except.ok.injEq] at h
                subst h
                simpa [NamedDef.name] using hself
              · next nm ts =>
                have hext := reduceStep_ext env fuel _ _ _ h
                exact lookupTM_ext hext (by simpa [NamedDef.name] using hself)
              · next nm intfs fields =>
                split at h
                · simp at h
                · next m2 h1 =>
                  have hext := (reduceStep_ext env fuel _ _ _ h1).trans
                    (reduceStep_ext env fuel _ _ _ h)
                  exact lookupTM_ext hext (by simpa [NamedDef.name] using hself)
              · next nm fields =>
                have hext := reduceStep_ext env fuel _ _ _ h
                exact lookupTM_ext hext (by simpa [NamedDef.name] using hself)
              · next nm fields =>
                have hext := reduceStep_ext env fuel _ _ _ h
                exact lookupTM_ext hext (by simpa [NamedDef.name] using hself)
    | typeList ids =>
      cases ids with
      | nil => simp [taskCores] at hc
      | cons id rest =>
        simp only [taskCores, List.mem_cons] at hc
        simp only [reduceStep] at h
        split at h
        · simp at h
        · next m1 h1 =>
          rcases hc with hc | hc
          · subst hc
            have := ih m (.typ (some (.named c))) m1 h1 c
              (by simp [taskCores, GType.core]) dc hdc
            exact lookupTM_ext (reduceStep_ext env fuel _ _ _ h) this
          · exact ih m1 (.typeList rest) m' h c (by simpa [taskCores] using hc) dc hdc
    | fieldList tname fields =>
      cases fields with
      | nil => simp [taskCores, fieldRefs] at hc
      | cons p rest =>
        obtain ⟨fn, f⟩ := p
        simp only [taskCores, fieldRefs, List.mem_append, List.mem_singleton] at hc
        simp only [reduceStep] at h
        split at h
        · split at h
          · simp at h
          · next m1 h1 =>
            split at h
            · simp at h
            · next m2 h2 =>
              rcases hc with (hc | hc) | hc
              · have := ih m (.argList tname fn f.args) m1 h1 c
                  (by simpa [taskCores] using hc) dc hdc
                exact lookupTM_ext ((reduceStep_ext env fuel _ _ _ h2).trans
                  (reduceStep_ext env fuel _ _ _ h)) this
              · subst hc
                have := ih m1 (.typ (some f.fieldType)) m2 h2 f.fieldType.core
                  (by simp [taskCores]) dc hdc
                exact lookupTM_ext (reduceStep_ext env fuel _ _ _ h) this
              · exact ih m2 (.fieldList tname rest) m' h c
                  (by simpa [taskCores] using hc) dc hdc
        · simp at h
    | argList tname fn args =>
      cases args with
      | nil => simp [taskCores] at hc
      | cons p rest =>
        obtain ⟨an, a⟩ := p
        simp only [taskCores, List.map_cons, List.mem_cons] at hc
        simp only [reduceStep] at h
        split at h
        · split at h
          · simp at h
          · next m1 h1 =>
            rcases hc with hc | hc
            · subst hc
              have := ih m (.typ (some a)) m1 h1 a.core (by simp [taskCores]) dc hdc
              exact lookupTM_ext (reduceStep_ext env fuel _ _ _ h) this
            · exact ih m1 (.argList tname fn rest) m' h c
                (by simpa [taskCores] using hc) dc hdc
        · simp at h
    | inputFieldList tname fields =>
      cases fields with
      | nil => simp [taskCores] at hc
      | cons p rest =>
        obtain ⟨fn, t⟩ := p
        simp only [taskCores, List.map_cons, List.mem_cons] at hc
        simp only [reduceStep] at h
        split at h
        · split at h
          · simp at h
          · next m1 h1 =>
            rcases hc with hc | hc
            · subst hc
              have := ih m (.typ (some t)) m1 h1 t.core (by simp [taskCores]) dc hdc
              exact lookupTM_ext (reduceStep_ext env fuel _ _ _ h) this
            · exact ih m1 (.inputFieldList tname rest) m' h c
                (by simpa [taskCores] using hc) dc hdc
        · simp at h

/-- Every entry a successful step adds to the map is *closed* in the final
map: all named types its definition references (and that have definitions)
are present under their own names. -/
theorem reduceStep_closed (env : List NamedDef) :
    ∀ fuel m task m', reduceStep env fuel m task = .ok m' →
      ∀ n id, (n, id) ∈ m' → (n, id) ∉ m →
        ∀ d, env.get? id = some d → ∀ c, c ∈ d.refs → ∀ dc, env.get? c = some dc →
          lookupTM m' dc.name = some c := by
  intro fuel
  induction fuel with
  | zero => intro m task m' h; simp [reduceStep] at h
  | succ fuel ih =>
    intro m task m' h n id hmem hnot d hd c hc dc hdc
    cases task with
    | typ t =>
      cases t with
      | none =>
        simp only [reduceStep, Except.ok.injEq] at h
        subst h
        exact absurd hmem hnot
      | some t =>
        cases t with
        | list u => exact ih m (.typ (some u)) m' h n id hmem hnot d hd c hc dc hdc
        | nonNull u => exact ih m (.typ (some u)) m' h n id hmem hnot d hd c hc dc hdc
        | named tid =>
          simp only [reduceStep] at h
          split at h
          · simp only [Except.ok.injEq] at h; subst h; exact absurd hmem hnot
          · next d0 henv =>
            split at h
            · split at h
              · simp only [Except.ok.injEq] at h; subst h; exact absurd hmem hnot
              · simp at h
            · next hl =>
              split at h
              · next nm =>
                simp only [Except.ok.injEq] at h
                subst h
                rcases List.mem_append.mp hmem with hm | hm
                · exact absurd hm hnot
                · simp only [List.mem_singleton, Prod.mk.injEq] at hm
                  obtain ⟨rfl, rfl⟩ := hm
                  rw [henv] at hd
                  injection hd with hd'
                  subst hd'
                  simp [NamedDef.refs] at hc
              · next nm =>
                simp only [Except.ok.injEq] at h
                subst h
                rcases List.mem_append.mp hmem with hm | hm
                · exact absurd hm hnot
                · simp only [List.mem_singleton, Prod.mk.injEq] at hm
                  obtain ⟨rfl, rfl⟩ := hm
                  rw [henv] at hd
                  injection hd with hd'
                  subst hd'
                  simp [NamedDef.refs] at hc
              · next nm ts =>
                by_cases hm1 : (n, id) ∈ m ++ [(nm, tid)]
                · rcases List.mem_append.mp hm1 with hm | hm
                  · exact absurd hm hnot
                  · simp only [List.mem_singleton, Prod.mk.injEq] at hm
                    obtain ⟨rfl, rfl⟩ := hm
                    rw [henv] at hd
                    injection hd with hd'
                    subst hd'
                    refine reduceStep_cores env fuel _ _ _ h c ?_ dc hdc
                    simpa [taskCores, NamedDef.refs] using hc
                · exact ih _ (.typeList ts) m' h n id hmem hm1 d hd c hc dc hdc
              · next nm intfs fields =>
                split at h
                · simp at h
                · next m2 h1 =>
                  by_cases hm2 : (n, id) ∈ m2
                  · by_cases hm1 : (n, id) ∈ m ++ [(nm, tid)]
                    · rcases List.mem_append.mp hm1 with hm | hm
                      · exact absurd hm hnot
                      · simp only [List.mem_singleton, Prod.mk.injEq] at hm
                        obtain ⟨rfl, rfl⟩ := hm
                        rw [henv] at hd
                        injection hd with hd'
                        subst hd'
                        simp only [NamedDef.refs, List.mem_append] at hc
                        rcases hc with hc | hc
                        · have := reduceStep_cores env fuel _ _ _ h1 c
                            (by simpa [taskCores] using hc) dc hdc
                          exact lookupTM_ext (reduceStep_ext env fuel _ _ _ h) this
                        · exact reduceStep_cores env fuel _ _ _ h c
                            (by simpa [taskCores] using hc) dc hdc
                    · have := ih _ (.typeList intfs) m2 h1 n id hm2 hm1 d hd c hc dc hdc
                      exact lookupTM_ext (reduceStep_ext env fuel _ _ _ h) this
                  · exact ih m2 (.fieldList nm fields) m' h n id hmem hm2 d hd c hc dc hdc
              · next nm fields =>
                by_cases hm1 : (n, id) ∈ m ++ [(nm, tid)]
                · rcases List.mem_append.mp hm1 with hm | hm
                  · exact absurd hm hnot
                  · simp only [List.mem_singleton, Prod.mk.injEq] at hm
                    obtain ⟨rfl, rfl⟩ := hm
                    rw [henv] at hd
                    injection hd with hd'
                    subst hd'
                    refine reduceStep_cores env fuel _ _ _ h c ?_ dc hdc
                    simpa [taskCores, NamedDef.refs] using hc
                · exact ih _ (.fieldList nm fields) m' h n id hmem hm1 d hd c hc dc hdc
              · next nm fields =>
                by_cases hm1 : (n, id) ∈ m ++ [(nm, tid)]
                · rcases List.mem_append.mp hm1 with hm | hm
                  · exact absurd hm hnot
                  · simp only [List.mem_singleton, Prod.mk.injEq] at hm
                    obtain ⟨rfl, rfl⟩ := hm
                    rw [henv] at hd
                    injection hd with hd'
                    subst hd'
                    refine reduceStep_cores env fuel _ _ _ h c ?_ dc hdc
                    simpa [taskCores, NamedDef.refs] using hc
                · exact ih _ (.inputFieldList nm fields) m' h n id hmem hm1 d hd c hc dc hdc
    | typeList ids =>
      cases ids with
      | nil =>
        simp only [reduceStep, Except.ok.injEq] at h
        subst h
        exact absurd hmem hnot
      | cons tid rest =>
        simp only [reduceStep] at h
        split at h
        · simp at h
        · next m1 h1 =>
          by_cases hm1 : (n, id) ∈ m1
          · have := ih m (.typ (some (.named tid))) m1 h1 n id hm1 hnot d hd c hc dc hdc
            exact lookupTM_ext (reduceStep_ext env fuel _ _ _ h) this
          · exact ih m1 (.typeList rest) m' h n id hmem hm1 d hd c hc dc hdc
    | fieldList tname fields =>
      cases fields with
      | nil =>
        simp only [reduceStep, Except.ok.injEq] at h
        subst h
        exact absurd hmem hnot
      | cons p rest =>
        obtain ⟨fn, f⟩ := p
        simp only [reduceStep] at h
        split at h
        · split at h
          · simp at h
          · next m1 h1 =>
            split at h
            · simp at h
            · next m2 h2 =>
              by_cases hm2 : (n, id) ∈ m2
              · by_cases hm1 : (n, id) ∈ m1
                · have := ih m (.argList tname fn f.args) m1 h1 n id hm1 hnot d hd c hc dc hdc
                  exact lookupTM_ext ((reduceStep_ext env fuel _ _ _ h2).trans
                    (reduceStep_ext env fuel _ _ _ h)) this
                · have := ih m1 (.typ (some f.fieldType)) m2 h2 n id hm2 hm1 d hd c hc dc hdc
                  exact lookupTM_ext (reduceStep_ext env fuel _ _ _ h) this
              · exact ih m2 (.fieldList tname rest) m' h n id hmem hm2 d hd c hc dc hdc
        · simp at h
    | argList tname fn args =>
      cases args with
      | nil =>
        simp only [reduceStep, Except.ok.injEq] at h
        subst h
        exact absurd hmem hnot
      | cons p rest =>
        obtain ⟨an, a⟩ := p
        simp only [reduceStep] at h
        split at h
        · split at h
          · simp at h
          · next m1 h1 =>
            by_cases hm1 : (n, id) ∈ m1
            · have := ih m (.typ (some a)) m1 h1 n id hm1 hnot d hd c hc dc hdc
              exact lookupTM_ext (reduceStep_ext env fuel _ _ _ h) this
            · exact ih m1 (.argList tname fn rest) m' h n id hmem hm1 d hd c hc dc hdc
        · simp at h
    | inputFieldList tname fields =>
      cases fields with
      | nil =>
        simp only [reduceStep, Except.ok.injEq] at h
        subst h
        exact absurd hmem hnot
      | cons p rest =>
        obtain ⟨fn, t⟩ := p
        simp only [reduceStep] at h
        split at h
        · split at h
          · simp at h
          · next m1 h1 =>
            by_cases hm1 : (n, id) ∈ m1
            · have := ih m (.typ (some t)) m1 h1 n id hm1 hnot d hd c hc dc hdc
              exact lookupTM_ext (reduceStep_ext env fuel _ _ _ h) this
            · exact ih m1 (.inputFieldList tname rest) m' h n id hmem hm1 d hd c hc dc hdc
        · simp at h

/-- The reducer inserts a name only when it is absent, so distinctness of the
map's keys is preserved: no name ever appears twice. -/
theorem reduceStep_nodupKeys (env : List NamedDef) :
    ∀ fuel m task m', reduceStep env fuel m task = .ok m' →
      (keys m).Nodup → (keys m').Nodup := by
  intro fuel
  induction fuel with
  | zero => intro m task m' h; simp [reduceStep] at h
  | succ fuel ih =>
    intro m task m' h hnd
    have insert_nodup : ∀ (nm : String) (tid : Nat), lookupTM m nm = none →
        (keys (m ++ [(nm, tid)])).Nodup := by
      intro nm tid hl
      have hkeys : keys (m ++ [(nm, tid)]) = keys m ++ [nm] := by
        simp [keys]
      rw [hkeys, List.nodup_append]
      refine ⟨hnd, List.nodup_singleton _, ?_⟩
      intro x hx hx'
      simp only [List.mem_singleton] at hx'
      subst hx'
      exact (lookupTM_none_key hl) hx
    cases task with
    | typ t =>
      cases t with
      | none => simp only [reduceStep, Except.ok.injEq] at h; subst h; exact hnd
      | some t =>
        cases t with
        | list u => exact ih m (.typ (some u)) m' h hnd
        | nonNull u => exact ih m (.typ (some u)) m' h hnd
        | named tid =>
          simp only [reduceStep] at h
          split at h
          · simp only [Except.ok.injEq] at h; subst h; exact hnd
          · next d henv =>
            split at h
            · split at h
              · simp only [Except.ok.injEq] at h; subst h; exact hnd
              · simp at h
            · next hl =>
              split at h
              · next nm =>
                simp only [Except.ok.injEq] at h
                subst h
                exact insert_nodup nm tid (by simpa [NamedDef.name] using hl)
              · next nm =>
                simp only [Except.ok.injEq] at h
                subst h
                exact insert_nodup nm tid (by simpa [NamedDef.name] using hl)
              · next nm ts =>
                exact ih _ (.typeList ts) m' h
                  (insert_nodup nm tid (by simpa [NamedDef.name] using hl))
              · next nm intfs fields =>
                split at h
                · simp at h
                · next m2 h1 =>
                  exact ih m2 (.fieldList nm fields) m' h
                    (ih _ (.typeList intfs) m2 h1
                      (insert_nodup nm tid (by simpa [NamedDef.name] using hl)))
              · next nm fields =>
                exact ih _ (.fieldList nm fields) m' h
                  (insert_nodup nm tid (by simpa [NamedDef.name] using hl))
              · next nm fields =>
                exact ih _ (.inputFieldList nm fields) m' h
                  (insert_nodup nm tid (by simpa [NamedDef.name] using hl))
    | typeList ids =>
      cases ids with
      | nil => simp only [reduceStep, Except.ok.injEq] at h; subst h; exact hnd
      | cons tid rest =>
        simp only [reduceStep] at h
        split at h
        · simp at h
        · next m1 h1 =>
          exact ih m1 (.typeList rest) m' h (ih m (.typ (some (.named tid))) m1 h1 hnd)
    | fieldList tname fields =>
      cases fields with
      | nil => simp only [reduceStep, Except.ok.injEq] at h; subst h; exact hnd
      | cons p rest =>
        obtain ⟨fn, f⟩ := p
        simp only [reduceStep] at h
        split at h
        · split at h
          · simp at h
          · next m1 h1 =>
            split at h
            · simp at h
            · next m2 h2 =>
              exact ih m2 (.fieldList tname rest) m' h
                (ih m1 (.typ (some f.fieldType)) m2 h2
                  (ih m (.argList tname fn f.args) m1 h1 hnd))
        · simp at h
    | argList tname fn args =>
      cases args with
      | nil => simp only [reduceStep, Except.ok.injEq] at h; subst h; exact hnd
      | cons p rest =>
        obtain ⟨an, a⟩ := p
        simp only [reduceStep] at h
        split at h
        · split at h
          · simp at h
          · next m1 h1 =>
            exact ih m1 (.argList tname fn rest) m' h (ih m (.typ (some a)) m1 h1 hnd)
        · simp at h
    | inputFieldList tname fields =>
      cases fields with
      | nil => simp only [reduceStep, Except.ok.injEq] at h; subst h; exact hnd
      | cons p rest =>
        obtain ⟨fn, t⟩ := p
        simp only [reduceStep] at h
        split at h
        · split at h
          · simp at h
          · next m1 h1 =>
            exact ih m1 (.inputFieldList tname rest) m' h (ih m (.typ (some t)) m1 h1 hnd)
        · simp at h

theorem reduceRoots_ext (env : List NamedDef) (fuel : Nat) :
    ∀ roots m m', reduceRoots env fuel m roots = .ok m' → MapExt m m' := by
  intro roots
  induction roots with
  | nil => intro m m' h; simp only [reduceRoots, Except.ok.injEq] at h; subst h; exact mapExt_refl
  | cons r rest ih =>
    intro m m' h
    simp only [reduceRoots] at h
    split at h
    · simp at h
    · next m1 h1 => exact (reduceStep_ext env fuel _ _ _ h1).trans (ih m1 m' h)

theorem reduceRoots_nodup (env : List NamedDef) (fuel : Nat) :
    ∀ roots m m', reduceRoots env fuel m roots = .ok m' → (keys m).Nodup → (keys m').Nodup := by
  intro roots
  induction roots with
  | nil => intro m m' h hnd; simp only [reduceRoots, Except.ok.injEq] at h; subst h; exact hnd
  | cons r rest ih =>
    intro m m' h hnd
    simp only [reduceRoots] at h
    split at h
    · simp at h
    · next m1 h1 => exact ih m1 m' h (reduceStep_nodupKeys env fuel m _ m1 h1 hnd)

theorem reduceRoots_cores (env : List NamedDef) (fuel : Nat) :
    ∀ roots m M, reduceRoots env fuel m roots = .ok M →
      ∀ t : GType, some t ∈ roots → ∀ dc, env.get? t.core = some dc →
        lookupTM M dc.name = some t.core := by
  intro roots
  induction roots with
  | nil => intro m M h t ht; simp at ht
  | cons r rest ih =>
    intro m M h t ht dc hdc
    simp only [reduceRoots] at h
    split at h
    · simp at h
    · next m1 h1 =>
      rcases List.mem_cons.mp ht with hr | hr
      · subst hr
        have := reduceStep_cores env fuel m _ m1 h1 t.core (by simp [taskCores]) dc hdc
        exact lookupTM_ext (reduceRoots_ext env fuel rest m1 M h) this
      · exact ih m1 M h t hr dc hdc

theorem reduceRoots_closed (env : List NamedDef) (fuel : Nat) :
    ∀ roots m M, reduceRoots env fuel m roots = .ok M →
      ∀ n id, (n, id) ∈ M → (n, id) ∉ m →
        ∀ d, env.get? id = some d → ∀ c, c ∈ d.refs → ∀ dc, env.get? c = some dc →
          lookupTM M dc.name = some c := by
  intro roots
  induction roots with
  | nil =>
    intro m M h n id hmem hnot
    simp only [reduceRoots, Except.ok.injEq] at h
    subst h
    exact absurd hmem hnot
  | cons r rest ih =>
    intro m M h n id hmem hnot d hd c hc dc hdc
    simp only [reduceRoots] at h
    split at h
    · simp at h
    · next m1 h1 =>
      by_cases hm1 : (n, id) ∈ m1
      · have := reduceStep_closed env fuel m _ m1 h1 n id hm1 hnot d hd c hc dc hdc
        exact lookupTM_ext (reduceRoots_ext env fuel rest m1 M h) this
      · exact ih m1 M h n id hmem hm1 d hd c hc dc hdc

theorem reduceRoots_no_outOfFuel (env : List NamedDef) (fuel : Nat) :
    ∀ roots m, (∀ t ∈ roots, envW env * unmapped env m + taskW (.typ t) < fuel) →
      reduceRoots env fuel m roots ≠ .error .outOfFuel := by
  intro roots
  induction roots with
  | nil => intro m hb h; simp [reduceRoots] at h
  | cons r rest ih =>
    intro m hb h
    simp only [reduceRoots] at h
    split at h
    · next e h1 =>
      have he : e = Err.outOfFuel := by simpa using h
      subst he
      exact reduceStep_no_outOfFuel env fuel m (.typ r)
        (hb r (List.mem_cons_self _ _)) h1
    · next m1 h1 =>
      refine ih m1 ?_ h
      intro t ht
      have hu : envW env * unmapped env m1 ≤ envW env * unmapped env m :=
        mul_le_mul_left' (unmapped_le_of_ext env (reduceStep_ext env fuel _ _ _ h1)) _
      have := hb t (List.mem_cons_of_mem _ ht)
      omega

theorem mem_le_sum {l : List Nat} {a : Nat} (h : a ∈ l) : a ≤ l.sum := by
  induction l with
  | nil => cases h
  | cons b l ih =>
    rcases List.mem_cons.mp h with h1 | h1
    · subst h1; simp only [List.sum_cons]; omega
    · have := ih h1; simp only [List.sum_cons]; omega

/-- A named type is reachable from the roots: it is the innermost named type
of a root, or it is directly referenced (through union members, object
interfaces, field types, or argument types) by the definition of a reachable
named type. -/
inductive ReachableFrom (env : List NamedDef) (roots : List (Option GType)) : Nat → Prop
| root (t : GType) (h : some t ∈ roots) : ReachableFrom env roots t.core
| step (id c : Nat) (d : NamedDef) (hr : ReachableFrom env roots id)
    (hd : env.get? id = some d) (hc : c ∈ d.refs) : ReachableFrom env roots c

/-- C1: for every list of root types — cyclic reference graphs included —
`GraphQLTypeMap` construction terminates (the fuel embedding never exhausts
its computable bound), and when the closure succeeds, the resulting map
contains every named type transitively reachable from the roots exactly once
(its keys are duplicate-free), each under its own name and mapped to its own
definition's identity.  This is proved for *all* type graphs, which includes
every graph containing a cycle (A references B and B references A); the
witness below instantiates it on exactly such a two-type cycle. -/
theorem typeMap_construction_terminates_and_complete (env : List NamedDef)
    (roots : List (Option GType)) :
    buildTypeMap env roots ≠ .error .outOfFuel ∧
    ∀ m, buildTypeMap env roots = .ok m →
      (keys m).Nodup ∧
      ∀ id d, ReachableFrom env roots id → env.get? id = some d →
        lookupTM m d.name = some id := by
  constructor
  · unfold buildTypeMap
    apply reduceRoots_no_outOfFuel
    intro t ht
    have h1 : unmapped env [] ≤ env.length := unmapped_le_len env []
    have h2 : taskW (.typ t) ≤ (roots.map (fun t => taskW (.typ t))).sum :=
      mem_le_sum (List.mem_map_of_mem _ ht)
    have h3 : envW env * unmapped env [] ≤ envW env * env.length :=
      mul_le_mul_left' h1 _
    have h4 : envW env * (env.length + 1) = envW env * env.length + envW env := by ring
    have h5 : 1 ≤ envW env := by unfold envW; omega
    unfold totalFuel
    omega
  · intro m hok
    unfold buildTypeMap at hok
    refine ⟨reduceRoots_nodup env _ roots [] m hok (by simp [keys]), ?_⟩
    have aux : ∀ i, ReachableFrom env roots i →
        ∀ d', env.get? i = some d' → lookupTM m d'.name = some i := by
      intro i hr
      induction hr with
      | root t ht =>
        intro d' hd'
        exact reduceRoots_cores env _ roots [] m hok t ht d' hd'
      | step j c d0 hr0 hd0 hc ihr =>
        intro d' hd'
        have hmem : (d0.name, j) ∈ m := lookupTM_mem (ihr d0 hd0)
        exact reduceRoots_closed env _ roots [] m hok d0.name j hmem (by simp) d0 hd0 c hc d' hd'
    exact fun id d hr hd => aux id hr d hd

/-- A two-type cycle: object `A` has a field of type `B`, object `B` has a
field of type `A`. -/
def envCyc : List NamedDef :=
  [.object "A" [] [("b", ⟨.named 1, []⟩)], .object "B" [] [("a", ⟨.named 0, []⟩)]]

theorem typeMap_construction_witness :
    buildTypeMap envCyc [some (.named 0)] = .ok [("A", 0), ("B", 1)] ∧
    (keys [("A", 0), ("B", 1)]).Nodup ∧
    lookupTM [("A", 0), ("B", 1)] "A" = some 0 ∧
    lookupTM [("A", 0), ("B", 1)] "B" = some 1 := by
  have hb : buildTypeMap envCyc [some (.named 0)] = .ok [("A", 0), ("B", 1)] := by rfl
  obtain ⟨hnd, hcomp⟩ :=
    (typeMap_construction_terminates_and_complete envCyc [some (.named 0)]).2 _ hb
  have hr0 : ReachableFrom envCyc [some (.named 0)] 0 :=
    ReachableFrom.root (.named 0) (by simp)
  have hr1 : ReachableFrom envCyc [some (.named 0)] 1 :=
    ReachableFrom.step 0 1 (.object "A" [] [("b", ⟨.named 1, []⟩)]) hr0 rfl
      (by simp [NamedDef.refs, fieldRefs, GType.core])
  exact ⟨hb, hnd, hcomp 0 _ hr0 rfl, hcomp 1 _ hr1 rfl⟩

/-- C2: when the reducer reaches a named type whose name is already a key of
the map, it asserts that the stored definition is the *same* one: a revisit
of the identical definition returns the map unchanged, while two distinct
definitions sharing a name fail with the assertion message that contains
"must contain unique named types" and names the duplicate. -/
theorem reducer_duplicate_name_check (env : List NamedDef) (fuel : Nat) (m : TMap)
    (id id' : Nat) (d : NamedDef)
    (henv : env.get? id = some d) (hl : lookupTM m d.name = some id') :
    (id' = id → reduceStep env (fuel + 1) m (.typ (some (.named id))) = .ok m) ∧
    (id' ≠ id →
      reduceStep env (fuel + 1) m (.typ (some (.named id))) =
        .error (.assertion (uniqueMsg d.name)) ∧
      "must contain unique named types".data <:+: (uniqueMsg d.name).data ∧
      d.name.data <:+: (uniqueMsg d.name).data) := by
  have henv' : env[id]? = some d := by simpa using henv
  constructor
  · intro hid
    simp [reduceStep, henv', hl, hid]
  · intro hid
    refine ⟨by simp [reduceStep, henv', hl, hid], ?_, ?_⟩
    · refine ⟨"Schema ".data, (" but contains multiple types named \"" ++ d.name ++ "\".").data, ?_⟩
      show _ = (uniqueMsg d.name).data
      rw [uniqueMsg]
      rw [show ("Schema must contain unique named types but contains multiple types named \"" : String) = "Schema " ++ "must contain unique named types" ++ " but contains multiple types named \"" from rfl]
      simp [String.data_append, List.append_assoc]
    · refine ⟨"Schema must contain unique named types but contains multiple types named \"".data, "\".".data, ?_⟩
      show _ = (uniqueMsg d.name).data
      rw [uniqueMsg]
      simp [String.data_append, List.append_assoc]

/-- Two distinct definitions sharing the name `"X"`. -/
def envDup : List NamedDef := [.scalar "X", .enum "X"]

/-- Generic first-match lookup in an ordered association list (field maps,
argument maps, the implementations index, the possible-type cache). -/
def lookupAL {β : Type} : List (String × β) → String → Option β
| [], _ => none
| (k, v) :: rest, n => if k = n then some v else lookupAL rest n

/-- `str()` of a named type by identity (Python reads `.name` off the
referenced object; a dangling identity cannot arise from Python object
references). -/
def nameOfId (env : List NamedDef) (id : Nat) : String :=
  match env.get? id with
  | some d => d.name
  | none => ""

/-- The `GraphQLTypeMap` instance after `__init__`: the closed ordered map,
the eager interface→implementers index, and the lazy possible-type cache
(empty right after construction). -/
structure TypeMapState where
  map : TMap
  implementations : List (String × List Nat)
  possibleTypeMap : List (String × List String)
deriving DecidableEq, Repr

/-- `self._implementations[interface.name].append(gql_type)`: append to the
list under the key, creating the key at the end on first use
(`defaultdict(list)` keyed in first-append order). -/
def addImpl : List (String × List Nat) → String → Nat → List (String × List Nat)
| [], iname, oid => [(iname, [oid])]
| (n, l) :: rest, iname, oid =>
  if n = iname then (n, l ++ [oid]) :: rest else (n, l) :: addImpl rest iname oid

/-- The implementations index (typemap.py lines 34–41): for every value of
the map, in insertion order, if it is an object type, append it to the entry
of each interface it lists. -/
def buildImpls (env : List NamedDef) : TMap → List (String × List Nat) → List (String × List Nat)
| [], acc => acc
| (_, id) :: rest, acc =>
  match env.get? id with
  | some (.object _ intfs _) =>
    buildImpls env rest (intfs.foldl (fun a iid => addImpl a (nameOfId env iid) id) acc)
  | _ => buildImpls env rest acc

/-- Modelled from the spec: `is_equal_type` (utils/type_comparators.py is not
part of the snapshot) — "identical type": the same named type, or the same
wrapper over equal types (named types compare by object identity). -/
def isEqualType : GType → GType → Bool
| .named a, .named b => a == b
| .list a, .list b => isEqualType a b
| .nonNull a, .nonNull b => isEqualType a b
| _, _ => false

/-- Modelled from the spec: `is_type_sub_type_of` (utils/type_comparators.py
is not part of the snapshot).  §4.2: a covariant subtype is an "identical
type, object implementing interface, member implementing union, or covariant
list/non-null wrapping"; a non-null subtype may also be used where the
nullable supertype is expected. -/
def isTypeSubTypeOf (env : List NamedDef) : GType → GType → Bool
| .named a, .named b =>
  a == b ||
  (match env.get? b, env.get? a with
   | some (.interface _ _), some (.object _ intfs _) => intfs.contains b
   | some (.union _ ts), some (.object _ _ _) => ts.contains a
   | _, _ => false)
| .nonNull t, .nonNull s => isTypeSubTypeOf env t s
| .nonNull t, sup => isTypeSubTypeOf env t sup
| _, .nonNull _ => false
| .list t, .list s => isTypeSubTypeOf env t s
| .list _, _ => false
| _, .list _ => false

/-- `True` exactly on `GraphQLNonNull` wrappers (a "required" argument). -/
def isNonNullT : GType → Bool
| .nonNull _ => true
| _ => false

/-- The loop over the *object* field's arguments in
`assert_object_implements_interface` (typemap.py lines 197–211): an argument
the interface does not declare is permitted unless its type is non-null. -/
def checkExtraArgs (env : List NamedDef) (oname iname fn : String)
    (iargs : List (String × GType)) : List (String × GType) → Except Err Unit
| [] => .ok ()
| (an, oa) :: rest =>
  match lookupAL iargs an with
  | some _ => checkExtraArgs env oname iname fn iargs rest
  | none =>
    if isNonNullT oa then
      .error (.assertion (oname ++ "." ++ fn ++ "(" ++ an ++ ":) is of required type \"" ++
        printGType env oa ++ "\" but is not also provided by the interface " ++
        iname ++ "." ++ fn ++ "."))
    else checkExtraArgs env oname iname fn iargs rest

/-- The loop over the *interface* field's arguments (typemap.py lines
177–195): every declared argument must be present on the object's field with
an identical type. -/
def checkIfaceArgs (env : List NamedDef) (oname iname fn : String)
    (oargs : List (String × GType)) : List (String × GType) → Except Err Unit
| [] => .ok ()
| (an, ia) :: rest =>
  match lookupAL oargs an with
  | none =>
    .error (.assertion (iname ++ "." ++ fn ++ " expects argument \"" ++ an ++ "\" but " ++
      oname ++ "." ++ fn ++ " does not provide it."))
  | some oa =>
    if isEqualType ia oa then checkIfaceArgs env oname iname fn oargs rest
    else
      .error (.assertion (iname ++ "." ++ fn ++ "(" ++ an ++ ":) expects type \"" ++
        printGType env ia ++ "\" but " ++ oname ++ "." ++ fn ++ "(" ++ an ++
        ":) provides type \"" ++ printGType env oa ++ "\"."))

/-- `GraphQLTypeMap.assert_object_implements_interface` (typemap.py lines
146–212): for every interface field, the object must provide a field of the
same name with a covariant type, with every interface argument present at an
identical type, and any extra argument not non-null. -/
def assertOII (env : List NamedDef) (oname : String) (ofields : List (String × GField))
    (iname : String) : List (String × GField) → Except Err Unit
| [] => .ok ()
| (fn, ifield) :: rest =>
  match lookupAL ofields fn with
  | none =>
    .error (.assertion ("\"" ++ iname ++ "\" expects field \"" ++ fn ++ "\" but \"" ++
      oname ++ "\" does not provide it."))
  | some ofield =>
    if isTypeSubTypeOf env ofield.fieldType ifield.fieldType then
      match checkIfaceArgs env oname iname fn ofield.args ifield.args with
      | .error e => .error e
      | .ok _ =>
        match checkExtraArgs env oname iname fn ifield.args ofield.args with
        | .error e => .error e
        | .ok _ => assertOII env oname ofields iname rest
    else
      .error (.assertion (iname ++ "." ++ fn ++ " expects type \"" ++
        printGType env ifield.fieldType ++ "\" but " ++ oname ++ "." ++ fn ++
        " provides type \"" ++ printGType env ofield.fieldType ++ "\"."))

/-- The conformance loop of `__init__` over one object's interface list
(typemap.py lines 43–47).  A non-interface entry is skipped here; in Python
it would fault on attribute access, which no well-formed schema reaches. -/
def checkIfaces (env : List NamedDef) (oname : String) (ofields : List (String × GField)) :
    List Nat → Except Err Unit
| [] => .ok ()
| iid :: rest =>
  match env.get? iid with
  | some (.interface iname ifields) =>
    match assertOII env oname ofields iname ifields with
    | .error e => .error e
    | .ok _ => checkIfaces env oname ofields rest
  | _ => checkIfaces env oname ofields rest

/-- The conformance loop of `__init__` over all map values. -/
def checkAll (env : List NamedDef) : TMap → Except Err Unit
| [] => .ok ()
| (_, id) :: rest =>
  match env.get? id with
  | some (.object nm intfs fields) =>
    match checkIfaces env nm fields intfs with
    | .error e => .error e
    | .ok _ => checkAll env rest
  | _ => checkAll env rest

/-- `GraphQLTypeMap.__init__` (typemap.py lines 28–47): run the closure, then
build the implementations index, then enforce interface conformance; the
possible-type cache starts empty. -/
def constructTypeMap (env : List NamedDef) (roots : List (Option GType)) :
    Except Err TypeMapState :=
  match buildTypeMap env roots with
  | .error e => .error e
  | .ok m =>
    match checkAll env m with
    | .error e => .error e
    | .ok _ => .ok ⟨m, buildImpls env m [], []⟩

/-- `GraphQLTypeMap.get_possible_types` (typemap.py lines 49–56): a union
answers with its declared member list; an interface answers with its entry
of the implementations index, or `[]` when it has none; anything else
trips the bare `assert isinstance(abstract_type, GraphQLInterfaceType)`. -/
def getPossibleTypes (env : List NamedDef) (tm : TypeMapState) (aid : Nat) :
    Except Err (List Nat) :=
  match env.get? aid with
  | some (.union _ ts) => .ok ts
  | some (.interface nm _) =>
    match lookupAL tm.implementations nm with
    | none => .ok []
    | some l => .ok l
  | _ => .error (.assertion "")

/-- The message of the empty-possible-types assertion in `is_possible_type`
(the missing space in "array ofall" is the source's own concatenation). -/
def emptyPossibleMsg (nm : String) : String :=
  "Could not find possible implementing types for " ++ nm ++
    " in schema. Check that schema.types is defined and is an array of" ++
    "all possible types in the schema."

/-- `GraphQLTypeMap.is_possible_type` (typemap.py lines 58–76): get the
possible types, assert the list is non-empty, lazily fill the per-name cache
with the possible types' names, and answer by name membership in the cache.
Returns the possibly updated state alongside the boolean. -/
def isPossibleType (env : List NamedDef) (tm : TypeMapState) (aid pid : Nat) :
    Except Err (Bool × TypeMapState) :=
  match getPossibleTypes env tm aid with
  | .error e => .error e
  | .ok possible =>
    match env.get? aid with
    | none => .error (.assertion "")
    | some da =>
      if possible.isEmpty then .error (.assertion (emptyPossibleMsg da.name))
      else
        match lookupAL tm.possibleTypeMap da.name with
        | some names => .ok (names.contains (nameOfId env pid), tm)
        | none =>
          let names := possible.map (nameOfId env)
          .ok (names.contains (nameOfId env pid),
            { tm with possibleTypeMap := tm.possibleTypeMap ++ [(da.name, names)] })

theorem checkExtraArgs_ok_iff (env : List NamedDef) (oname iname fn : String)
    (iargs : List (String × GType)) :
    ∀ oargs, checkExtraArgs env oname iname fn iargs oargs = .ok () ↔
      ∀ an oa, (an, oa) ∈ oargs → lookupAL iargs an = none → isNonNullT oa = false := by
  intro oargs
  induction oargs with
  | nil => simp [checkExtraArgs]
  | cons p rest ih =>
    obtain ⟨an, oa⟩ := p
    simp only [checkExtraArgs]
    cases hl : lookupAL iargs an with
    | some x =>
      constructor
      · intro h an' oa' hmem hnone
        rcases List.mem_cons.mp hmem with heq | hmem'
        · obtain ⟨rfl, rfl⟩ := Prod.mk.injEq .. ▸ heq
          rw [hnone] at hl
          cases hl
        · exact (ih.mp h) an' oa' hmem' hnone
      · intro h
        exact ih.mpr (fun an' oa' hmem => h an' oa' (List.mem_cons_of_mem _ hmem))
    | none =>
      cases hnn : isNonNullT oa with
      | true =>
        simp only [hnn, if_true]
        constructor
        · intro h; cases h
        · intro h
          have := h an oa (List.mem_cons_self _ _) hl
          rw [hnn] at this
          cases this
      | false =>
        simp only [hnn, Bool.false_eq_true, if_false]
        constructor
        · intro h an' oa' hmem hnone
          rcases List.mem_cons.mp hmem with heq | hmem'
          · obtain ⟨rfl, rfl⟩ := Prod.mk.injEq .. ▸ heq
            exact hnn
          · exact (ih.mp h) an' oa' hmem' hnone
        · intro h
          exact ih.mpr (fun an' oa' hmem => h an' oa' (List.mem_cons_of_mem _ hmem))

theorem checkIfaceArgs_ok_iff (env : List NamedDef) (oname iname fn : String)
    (oargs : List (String × GType)) :
    ∀ iargs, checkIfaceArgs env oname iname fn oargs iargs = .ok () ↔
      ∀ an ia, (an, ia) ∈ iargs →
        ∃ oa, lookupAL oargs an = some oa ∧ isEqualType ia oa = true := by
  intro iargs
  induction iargs with
  | nil => simp [checkIfaceArgs]
  | cons p rest ih =>
    obtain ⟨an, ia⟩ := p
    simp only [checkIfaceArgs]
    cases hl : lookupAL oargs an with
    | none =>
      constructor
      · intro h; cases h
      · intro h
        obtain ⟨oa, hoa, _⟩ := h an ia (List.mem_cons_self _ _)
        rw [hoa] at hl
        cases hl
    | some oa =>
      cases heq : isEqualType ia oa with
      | true =>
        simp only [heq, if_true]
        constructor
        · intro h an' ia' hmem
          rcases List.mem_cons.mp hmem with heq' | hmem'
          · obtain ⟨rfl, rfl⟩ := Prod.mk.injEq .. ▸ heq'
            exact ⟨oa, hl, heq⟩
          · exact (ih.mp h) an' ia' hmem'
        · intro h
          exact ih.mpr (fun an' ia' hmem => h an' ia' (List.mem_cons_of_mem _ hmem))
      | false =>
        simp only [heq, Bool.false_eq_true, if_false]
        constructor
        · intro h; cases h
        · intro h
          obtain ⟨oa', hoa', heq'⟩ := h an ia (List.mem_cons_self _ _)
          rw [hoa'] at hl
          injection hl with hl'
          subst hl'
          rw [heq'] at heq
          cases heq

/-- C4: the interface-conformance check at construction succeeds exactly when
every interface field is provided by the object at a covariant type, every
shared argument has an *identical* type, and every extra argument the object
field declares beyond the interface is *not* non-null — so a required
(non-null) extra argument is fatal while a nullable extra argument is
permitted, an asymmetry with the identical-type requirement on shared
arguments. -/
theorem assertOII_ok_iff (env : List NamedDef) (oname : String)
    (ofields : List (String × GField)) (iname : String) :
    ∀ ifields, assertOII env oname ofields iname ifields = .ok () ↔
      ∀ fn ifield, (fn, ifield) ∈ ifields →
        ∃ ofield, lookupAL ofields fn = some ofield ∧
          isTypeSubTypeOf env ofield.fieldType ifield.fieldType = true ∧
          (∀ an ia, (an, ia) ∈ ifield.args →
            ∃ oa, lookupAL ofield.args an = some oa ∧ isEqualType ia oa = true) ∧
          (∀ an oa, (an, oa) ∈ ofield.args → lookupAL ifield.args an = none →
            isNonNullT oa = false) := by
  intro ifields
  induction ifields with
  | nil => simp [assertOII]
  | cons p rest ih =>
    obtain ⟨fn, ifield⟩ := p
    cases hl : lookupAL ofields fn with
    | none =>
      constructor
      · intro h
        simp [assertOII, hl] at h
      · intro h
        obtain ⟨ofield, hof, _⟩ := h fn ifield (List.mem_cons_self _ _)
        rw [hl] at hof
        cases hof
    | some ofield =>
      cases hsub : isTypeSubTypeOf env ofield.fieldType ifield.fieldType with
      | false =>
        constructor
        · intro h
          simp [assertOII, hl, hsub] at h
        · intro h
          obtain ⟨ofield', hof', hsub', _⟩ := h fn ifield (List.mem_cons_self _ _)
          rw [hl] at hof'
          injection hof' with he
          rw [← he] at hsub'
          rw [hsub] at hsub'
          cases hsub'
      | true =>
        cases hia : checkIfaceArgs env oname iname fn ofield.args ifield.args with
        | error e =>
          constructor
          · intro h
            simp [assertOII, hl, hsub, hia] at h
          · intro h
            obtain ⟨ofield', hof', _, hargs, _⟩ := h fn ifield (List.mem_cons_self _ _)
            rw [hl] at hof'
            injection hof' with he
            rw [← he] at hargs
            rw [(checkIfaceArgs_ok_iff env oname iname fn ofield.args ifield.args).mpr hargs] at hia
            cases hia
        | ok u =>
          cases u
          cases hex : checkExtraArgs env oname iname fn ifield.args ofield.args with
          | error e =>
            constructor
            · intro h
              simp [assertOII, hl, hsub, hia, hex] at h
            · intro h
              obtain ⟨ofield', hof', _, _, hextra⟩ := h fn ifield (List.mem_cons_self _ _)
              rw [hl] at hof'
              injection hof' with he
              rw [← he] at hextra
              rw [(checkExtraArgs_ok_iff env oname iname fn ifield.args ofield.args).mpr hextra] at hex
              cases hex
          | ok u =>
            cases u
            have hunfold : assertOII env oname ofields iname ((fn, ifield) :: rest) =
                assertOII env oname ofields iname rest := by
              simp [assertOII, hl, hsub, hia, hex]
            rw [hunfold, ih]
            constructor
            · intro h fn' ifield' hmem
              rcases List.mem_cons.mp hmem with heq | hmem'
              · obtain ⟨rfl, rfl⟩ := Prod.mk.injEq .. ▸ heq
                exact ⟨ofield, hl,
                  hsub,
                  (checkIfaceArgs_ok_iff env oname iname _ ofield.args _).mp hia,
                  (checkExtraArgs_ok_iff env oname iname _ _ ofield.args).mp hex⟩
              · exact h fn' ifield' hmem'
            · intro h
              exact fun fn' ifield' hmem => h fn' ifield' (List.mem_cons_of_mem _ hmem)

theorem lookupAL_addImpl (a : List (String × List Nat)) (iname : String) (oid : Nat)
    (n : String) :
    lookupAL (addImpl a iname oid) n =
      if n = iname then some ((lookupAL a n).getD [] ++ [oid]) else lookupAL a n := by
  induction a with
  | nil =>
    by_cases h : n = iname
    · subst h; simp [addImpl, lookupAL]
    · simp [addImpl, lookupAL, h, Ne.symm h]
  | cons p rest ih =>
    obtain ⟨k, l⟩ := p
    by_cases hk : k = iname
    · subst hk
      by_cases hn : n = k
      · subst hn; simp [addImpl, lookupAL]
      · simp [addImpl, lookupAL, hn, Ne.symm hn]
    · simp only [addImpl, if_neg hk]
      by_cases hn : n = k
      · subst hn; simp [lookupAL, hk]
      · simp [lookupAL, hn, Ne.symm hn, ih]

/-- The object identities appended for interface name `n` while indexing one
object's interface list: one occurrence per matching interface entry. -/
def implHits (env : List NamedDef) (n : String) (intfs : List Nat) (id : Nat) : List Nat :=
  (intfs.filter (fun iid => nameOfId env iid == n)).map (fun _ => id)

theorem foldlAdd_getD (env : List NamedDef) (id : Nat) :
    ∀ (intfs : List Nat) (a : List (String × List Nat)) (n : String),
      (lookupAL (intfs.foldl (fun a iid => addImpl a (nameOfId env iid) id) a) n).getD [] =
        (lookupAL a n).getD [] ++ implHits env n intfs id := by
  intro intfs
  induction intfs with
  | nil => intro a n; simp [implHits]
  | cons iid rest ih =>
    intro a n
    by_cases hn : nameOfId env iid = n
    · simp only [List.foldl_cons, ih, lookupAL_addImpl, if_pos hn.symm, implHits,
        List.filter_cons, hn, beq_self_eq_true, if_true, List.map_cons, Option.getD_some]
      simp [implHits, List.append_assoc]
    · have hb : (nameOfId env iid == n) = false := by simp [hn]
      simp only [List.foldl_cons, ih, lookupAL_addImpl, if_neg (Ne.symm hn), implHits,
        List.filter_cons, hb]
      simp [implHits]

theorem foldlAdd_none (env : List NamedDef) (id : Nat) :
    ∀ (intfs : List Nat) (a : List (String × List Nat)) (n : String),
      (lookupAL (intfs.foldl (fun a iid => addImpl a (nameOfId env iid) id) a) n = none ↔
        lookupAL a n = none ∧ implHits env n intfs id = []) := by
  intro intfs
  induction intfs with
  | nil => intro a n; simp [implHits]
  | cons iid rest ih =>
    intro a n
    by_cases hn : nameOfId env iid = n
    · simp only [List.foldl_cons, ih, lookupAL_addImpl, if_pos hn.symm, implHits,
        List.filter_cons, hn, beq_self_eq_true, if_true, List.map_cons]
      simp [implHits]
    · have hb : (nameOfId env iid == n) = false := by simp [hn]
      simp only [List.foldl_cons, ih, lookupAL_addImpl, if_neg (Ne.symm hn), implHits,
        List.filter_cons, hb]
      simp [implHits]

/-- The implementer list the index is specified to hold for interface name
`n`: walking the map in insertion order, every object type contributes one
occurrence of itself per interface entry whose name is `n`. -/
def implementersSpec (env : List NamedDef) (n : String) : TMap → List Nat
| [] => []
| (_, id) :: rest =>
  (match env.get? id with
   | some (.object _ intfs _) => implHits env n intfs id
   | _ => []) ++ implementersSpec env n rest

theorem buildImpls_getD (env : List NamedDef) :
    ∀ (m : TMap) (acc : List (String × List Nat)) (n : String),
      (lookupAL (buildImpls env m acc) n).getD [] =
        (lookupAL acc n).getD [] ++ implementersSpec env n m := by
  intro m
  induction m with
  | nil => intro acc n; simp [buildImpls, implementersSpec]
  | cons p rest ih =>
    obtain ⟨k, id⟩ := p
    intro acc n
    cases hd : env.get? id with
    | none => simp only [buildImpls, hd, ih, implementersSpec, List.nil_append]
    | some d =>
      cases d with
      | object nm intfs fields =>
        simp only [buildImpls, hd, ih, implementersSpec, foldlAdd_getD, List.append_assoc]
      | scalar nm => simp only [buildImpls, hd, ih, implementersSpec, List.nil_append]
      | enum nm => simp only [buildImpls, hd, ih, implementersSpec, List.nil_append]
      | interface nm fields => simp only [buildImpls, hd, ih, implementersSpec, List.nil_append]
      | union nm ts => simp only [buildImpls, hd, ih, implementersSpec, List.nil_append]
      | inputObject nm fields => simp only [buildImpls, hd, ih, implementersSpec, List.nil_append]

theorem buildImpls_none (env : List NamedDef) :
    ∀ (m : TMap) (acc : List (String × List Nat)) (n : String),
      (lookupAL (buildImpls env m acc) n = none ↔
        lookupAL acc n = none ∧ implementersSpec env n m = []) := by
  intro m
  induction m with
  | nil => intro acc n; simp [buildImpls, implementersSpec]
  | cons p rest ih =>
    obtain ⟨k, id⟩ := p
    intro acc n
    cases hd : env.get? id with
    | none => simp only [buildImpls, hd, ih, implementersSpec, List.nil_append]
    | some d =>
      cases d with
      | object nm intfs fields =>
        simp only [buildImpls, hd, ih, implementersSpec, foldlAdd_none]
        constructor
        · rintro ⟨⟨h1, h2⟩, h3⟩
          exact ⟨h1, by simp [h2, h3]⟩
        · rintro ⟨h1, h2⟩
          rw [List.append_eq_nil] at h2
          exact ⟨⟨h1, h2.1⟩, h2.2⟩
      | scalar nm => simp only [buildImpls, hd, ih, implementersSpec, List.nil_append]
      | enum nm => simp only [buildImpls, hd, ih, implementersSpec, List.nil_append]
      | interface nm fields => simp only [buildImpls, hd, ih, implementersSpec, List.nil_append]
      | union nm ts => simp only [buildImpls, hd, ih, implementersSpec, List.nil_append]
      | inputObject nm fields => simp only [buildImpls, hd, ih, implementersSpec, List.nil_append]

/-- Unpacking a successful `__init__`: the state is the closed map, the
eagerly built implementations index, and an *empty* possible-type cache. -/
theorem constructTypeMap_state (env : List NamedDef) (roots : List (Option GType))
    (tm : TypeMapState) (hc : constructTypeMap env roots = .ok tm) :
    buildTypeMap env roots = .ok tm.map ∧
    tm.implementations = buildImpls env tm.map [] ∧
    tm.possibleTypeMap = [] := by
  unfold constructTypeMap at hc
  split at hc
  · cases hc
  · next m hm =>
    split at hc
    · cases hc
    · next hchk =>
      simp only [Except.ok.injEq] at hc
      subst hc
      exact ⟨hm, rfl, rfl⟩

/-- C3: on a constructed type map, `get_possible_types` answers a union with
exactly its declared member list and an interface with exactly the
implementer index built at construction (every object type of the map, in
encounter order, once per interface entry naming it); and when the possible
set is empty, `is_possible_type` is a fatal assertion (with the source's
"Could not find possible implementing types" message), not a `false`. -/
theorem getPossibleTypes_spec (env : List NamedDef) (roots : List (Option GType))
    (tm : TypeMapState) (hc : constructTypeMap env roots = .ok tm) :
    (∀ aid nm ts, env.get? aid = some (.union nm ts) →
      getPossibleTypes env tm aid = .ok ts) ∧
    (∀ aid nm fs, env.get? aid = some (.interface nm fs) →
      getPossibleTypes env tm aid = .ok (implementersSpec env nm tm.map)) ∧
    (∀ aid da pid, env.get? aid = some da → getPossibleTypes env tm aid = .ok [] →
      isPossibleType env tm aid pid = .error (.assertion (emptyPossibleMsg da.name))) := by
  obtain ⟨hm, himpl, hcache⟩ := constructTypeMap_state env roots tm hc
  refine ⟨?_, ?_, ?_⟩
  · intro aid nm ts ha
    simp only [getPossibleTypes, ha]
  · intro aid nm fs ha
    simp only [getPossibleTypes, ha]
    cases hlook : lookupAL tm.implementations nm with
    | none =>
      have : implementersSpec env nm tm.map = [] := by
        rw [himpl] at hlook
        exact ((buildImpls_none env tm.map [] nm).mp hlook).2
      rw [this]
    | some l =>
      have : l = implementersSpec env nm tm.map := by
        have hg := buildImpls_getD env tm.map [] nm
        rw [← himpl, hlook] at hg
        simpa [lookupAL] using hg
      rw [this]
  · intro aid da pid ha hempty
    have ha' : env[aid]? = some da := by simpa using ha
    simp [isPossibleType, hempty, ha']

/-- A schema with a union `U` of member `O`, an interface `I` implemented by
`O`, a scalar `S` and an interface `E` nobody implements. -/
def envC3 : List NamedDef :=
  [.object "O" [1] [("f", ⟨.named 3, []⟩)],
   .interface "I" [("f", ⟨.named 3, []⟩)],
   .union "U" [0],
   .scalar "S",
   .interface "E" [("g", ⟨.named 3, []⟩)]]

def rootsC3 : List (Option GType) := [some (.named 2), some (.named 4)]

def tmC3 : TypeMapState :=
  ⟨[("U", 2), ("O", 0), ("I", 1), ("S", 3), ("E", 4)], [("I", [0])], []⟩

theorem getPossibleTypes_witness :
    constructTypeMap envC3 rootsC3 = .ok tmC3 ∧
    getPossibleTypes envC3 tmC3 2 = .ok [0] ∧
    getPossibleTypes envC3 tmC3 1 = .ok [0] ∧
    getPossibleTypes envC3 tmC3 4 = .ok [] ∧
    isPossibleType envC3 tmC3 4 0 = .error (.assertion (emptyPossibleMsg "E")) := by
  have hc : constructTypeMap envC3 rootsC3 = .ok tmC3 := by rfl
  obtain ⟨h1, h2, h3⟩ := getPossibleTypes_spec envC3 rootsC3 tmC3 hc
  refine ⟨hc, h1 2 "U" [0] rfl, ?_, ?_, ?_⟩
  · rw [h2 1 "I" [("f", ⟨.named 3, []⟩)] rfl]
    rfl
  · rw [h2 4 "E" [("g", ⟨.named 3, []⟩)] rfl]
    rfl
  · exact h3 4 (.interface "E" [("g", ⟨.named 3, []⟩)]) 0 rfl
      (by rw [h2 4 "E" [("g", ⟨.named 3, []⟩)] rfl]; rfl)

/-- C9: an interface with no entry in the implementations index answers `[]`
from `get_possible_types` without failing; only `is_possible_type` turns the
empty possible-type set into a fatal assertion. -/
theorem emptyInterface_getPossibleTypes_ok (env : List NamedDef) (tm : TypeMapState)
    (aid : Nat) (nm : String) (fs : List (String × GField))
    (ha : env.get? aid = some (.interface nm fs))
    (hnone : lookupAL tm.implementations nm = none) :
    getPossibleTypes env tm aid = .ok [] ∧
    ∀ pid, isPossibleType env tm aid pid = .error (.assertion (emptyPossibleMsg nm)) := by
  have h1 : getPossibleTypes env tm aid = .ok [] := by
    simp only [getPossibleTypes, ha, hnone]
  refine ⟨h1, fun pid => ?_⟩
  have ha' : env[aid]? = some (NamedDef.interface nm fs) := by simpa using ha
  simp [isPossibleType, h1, ha', NamedDef.name]

theorem emptyInterface_witness :
    getPossibleTypes envC3 tmC3 4 = .ok [] ∧
    isPossibleType envC3 tmC3 4 1 = .error (.assertion (emptyPossibleMsg "E")) := by
  obtain ⟨h1, h2⟩ := emptyInterface_getPossibleTypes_ok envC3 tmC3 4 "E"
    [("g", ⟨.named 3, []⟩)] rfl rfl
  exact ⟨h1, h2 1⟩

/-- `get_possible_types` reads only the map and the implementations index,
never the lazy cache. -/
theorem getPossibleTypes_cache_irrelevant (env : List NamedDef) (tm tm' : TypeMapState)
    (himpl : tm'.implementations = tm.implementations) (x : Nat) :
    getPossibleTypes env tm' x = getPossibleTypes env tm x := by
  unfold getPossibleTypes
  rw [himpl]

/-- C8: on a freshly constructed type map, a successful `is_possible_type`
call answers the same boolean when repeated on the updated state, leaves
`get_possible_types` unchanged for every abstract type, and its boolean is
exactly membership of the candidate's name among the names of
`get_possible_types` of the abstract type — the lazily populated cache has
no observable effect. -/
theorem isPossibleType_stable (env : List NamedDef) (roots : List (Option GType))
    (tm : TypeMapState) (aid pid : Nat) (b : Bool) (tm' : TypeMapState)
    (hc : constructTypeMap env roots = .ok tm)
    (h1 : isPossibleType env tm aid pid = .ok (b, tm')) :
    isPossibleType env tm' aid pid = .ok (b, tm') ∧
    (∀ x, getPossibleTypes env tm' x = getPossibleTypes env tm x) ∧
    ∃ possible, getPossibleTypes env tm aid = .ok possible ∧
      b = (possible.map (nameOfId env)).contains (nameOfId env pid) := by
  obtain ⟨_, _, hcache⟩ := constructTypeMap_state env roots tm hc
  unfold isPossibleType at h1
  split at h1
  · cases h1
  · next possible hg =>
    split at h1
    · cases h1
    · next da hda =>
      split at h1
      · cases h1
      · next hne =>
        rw [hcache] at h1
        simp only [lookupAL] at h1
        simp only [Except.ok.injEq, Prod.mk.injEq] at h1
        obtain ⟨hb, htm'⟩ := h1
        have himpl : tm'.implementations = tm.implementations := by
          rw [← htm']
        have hmap : tm'.map = tm.map := by
          rw [← htm']
        have hcache' : tm'.possibleTypeMap = [(da.name, possible.map (nameOfId env))] := by
          rw [← htm']
          rfl
        refine ⟨?_, fun x => getPossibleTypes_cache_irrelevant env tm tm' himpl x, possible, hg, hb.symm⟩
        have hg' : getPossibleTypes env tm' aid = .ok possible := by
          rw [getPossibleTypes_cache_irrelevant env tm tm' himpl aid]
          exact hg
        simp only [isPossibleType, hg', hda]
        rw [if_neg hne, hcache']
        have hlook : lookupAL [(da.name, List.map (nameOfId env) possible)] da.name =
            some (List.map (nameOfId env) possible) := by
          simp [lookupAL]
        simp only [hlook]
        rw [hb]

/-- The state after the first `is_possible_type` query on `tmC3`. -/
def tmC3' : TypeMapState :=
  ⟨[("U", 2), ("O", 0), ("I", 1), ("S", 3), ("E", 4)], [("I", [0])], [("I", ["O"])]⟩

theorem isPossibleType_stable_witness :
    isPossibleType envC3 tmC3 1 0 = .ok (true, tmC3') ∧
    isPossibleType envC3 tmC3' 1 0 = .ok (true, tmC3') ∧
    getPossibleTypes envC3 tmC3' 1 = getPossibleTypes envC3 tmC3 1 := by
  have h1 : isPossibleType envC3 tmC3 1 0 = .ok (true, tmC3') := by rfl
  have hc : constructTypeMap envC3 rootsC3 = .ok tmC3 := by rfl
  obtain ⟨h2, h3, _⟩ := isPossibleType_stable envC3 rootsC3 tmC3 1 0 true tmC3' hc h1
  exact ⟨h1, h2, h3 1⟩

/-! ## The lexer

Only the lexer's test file (`graphql/language/tests/test_lexer.py`) is part
of the snapshot; the implementation (`graphql/language/lexer.py`, with
`source.py` and the error rendering of the `error` package) is modelled from
the specification §4.1/§3 and pinned against the test file's expected
tokens and messages.  Source text is a list of Unicode code points; the
scanners walk a suffix of the body carrying the absolute position, so that
every definition is structurally recursive and computable. -/

/-- Modelled from the spec: `Source` — raw text plus a display name (the
tests show the default display name `"GraphQL"`). -/
structure Source where
  body : List Nat
  name : String
deriving DecidableEq, Repr

/-- Modelled from the spec: the closed `TokenKind` enumeration (§3). -/
inductive TokenKind where
| eof
| bang
| dollar
| parenL
| parenR
| spread
| colon
| equals
| atSign
| bracketL
| bracketR
| braceL
| braceR
| pipe
| name
| int
| float
| string
| comment
deriving DecidableEq, Repr

/-- Modelled from the spec: `Token` — kind, half-open code-point offsets, and
the decoded value (present only for NAME/INT/FLOAT/STRING). -/
structure Token where
  kind : TokenKind
  start : Nat
  endPos : Nat
  value : Option (List Nat)
deriving DecidableEq, Repr

/-- Modelled from the spec: a `GraphQLSyntaxError` — the rendered message
plus its 1-based location and bare description. -/
structure SyntaxError where
  message : String
  line : Nat
  column : Nat
  description : String
deriving DecidableEq, Repr

def hexDigitChar (n : Nat) : Char :=
  if n < 10 then Char.ofNat (48 + n) else Char.ofNat (55 + n)

/-- Uppercase, 4-digit hexadecimal rendering of a code point (`%04X`). -/
def hex4 (c : Nat) : String :=
  String.mk [hexDigitChar (c / 4096 % 16), hexDigitChar (c / 256 % 16),
    hexDigitChar (c / 16 % 16), hexDigitChar (c % 16)]

/-- Modelled from the spec: `print_char_code` — `<EOF>` for end of input, the
quoted character for printable ASCII, and a quoted `\uXXXX` otherwise. -/
def printCharCode : Option Nat → String
| none => "<EOF>"
| some code =>
  if 0x20 ≤ code ∧ code < 0x7F then "\"" ++ String.mk [Char.ofNat code] ++ "\""
  else "\"\\u" ++ hex4 code ++ "\""

/-- Position → (1-based line, 1-based column); `\r\n`, `\n` and `\r` each
count as one line break. -/
def locGo : List Nat → Nat → Nat → Nat → Nat × Nat
| _, 0, line, col => (line, col)
| [], _, line, col => (line, col)
| 13 :: 10 :: rest, n + 2, line, _ => locGo rest n (line + 1) 1
| 13 :: 10 :: _, 1, line, col => (line, col + 1)
| 13 :: rest, n + 1, line, _ => locGo rest n (line + 1) 1
| 10 :: rest, n + 1, line, _ => locGo rest n (line + 1) 1
| _ :: rest, n + 1, line, col => locGo rest n line (col + 1)

/-- Modelled from the spec: `get_location`. -/
def getLocation (body : List Nat) (position : Nat) : Nat × Nat :=
  locGo body position 1 1

/-- Split the body on `\r\n`, `\n` or `\r` (the error-highlight line list). -/
def splitLinesGo (cur : List Nat) : List Nat → List (List Nat)
| [] => [cur]
| 13 :: 10 :: rest => cur :: splitLinesGo [] rest
| 13 :: rest => cur :: splitLinesGo [] rest
| 10 :: rest => cur :: splitLinesGo [] rest
| c :: rest => splitLinesGo (cur ++ [c]) rest

def renderCodes (l : List Nat) : String :=
  String.mk (l.map Char.ofNat)

def lpad (s : String) (w : Nat) : String :=
  String.mk (List.replicate (w - s.length) ' ') ++ s

/-- Modelled from the spec: `highlight_source_at_location` — up to three
context lines around the error line, each with a right-aligned 1-based line
number and `": "`, and a caret line under the column placed right after the
error line. -/
def highlightSourceAtLocation (source : Source) (line col : Nat) : String :=
  let lines := splitLinesGo [] source.body
  let padLen := (Nat.repr (line + 1)).length
  let mkLine : Nat → String := fun n =>
    match lines.get? (n - 1) with
    | some l => lpad (Nat.repr n) padLen ++ ": " ++ renderCodes l ++ "\n"
    | none => ""
  (if 2 ≤ line then mkLine (line - 1) else "") ++
  mkLine line ++
  (String.mk (List.replicate (padLen + 2 + (col - 1)) ' ') ++ "^\n") ++
  mkLine (line + 1)

/-- Modelled from the spec: the `GraphQLSyntaxError` constructor — message
format `Syntax Error <source-name> (<line>:<col>) <description>`, a blank
line, then the highlighted snippet. -/
def mkSyntaxError (source : Source) (position : Nat) (description : String) : SyntaxError :=
  let lc := getLocation source.body position
  { message := "Syntax Error " ++ source.name ++ " (" ++ Nat.repr lc.1 ++ ":" ++
      Nat.repr lc.2 ++ ") " ++ description ++ "\n\n" ++
      highlightSourceAtLocation source lc.1 lc.2,
    line := lc.1, column := lc.2, description := description }

/-- Modelled from the spec: the skip phase before each token — BOM, space,
tab, commas, line terminators and `#` comments (consumed through their line
terminator).  The boolean is the in-comment mode. -/
def skipIg : Bool → List Nat → Nat → List Nat × Nat
| true, [], pos => ([], pos)
| true, c :: rest, pos =>
  if c = 10 ∨ c = 13 then skipIg false rest (pos + 1)
  else skipIg true rest (pos + 1)
| false, [], pos => ([], pos)
| false, c :: rest, pos =>
  if c = 0xFEFF ∨ c = 9 ∨ c = 32 ∨ c = 44 ∨ c = 10 ∨ c = 13 then skipIg false rest (pos + 1)
  else if c = 35 then skipIg true rest (pos + 1)
  else (c :: rest, pos)

/-- Single-character punctuators. -/
def punctKind : Nat → Option TokenKind
| 33 => some .bang
| 36 => some .dollar
| 40 => some .parenL
| 41 => some .parenR
| 58 => some .colon
| 61 => some .equals
| 64 => some .atSign
| 91 => some .bracketL
| 93 => some .bracketR
| 123 => some .braceL
| 124 => some .pipe
| 125 => some .braceR
| _ => none

def isNameStart (c : Nat) : Bool :=
  c = 95 || (65 ≤ c && c ≤ 90) || (97 ≤ c && c ≤ 122)

def isDigit (c : Nat) : Bool :=
  48 ≤ c && c ≤ 57

def isNameContinue (c : Nat) : Bool :=
  isNameStart c || isDigit c

/-- `body[a:b]`. -/
def slice (body : List Nat) (a b : Nat) : List Nat :=
  (body.drop a).take (b - a)

def nameEndPos : List Nat → Nat → Nat
| c :: rest, pos => if isNameContinue c then nameEndPos rest (pos + 1) else pos
| [], pos => pos

/-- Modelled from the spec: `read_name` — longest `[_A-Za-z][_0-9A-Za-z]*`
match, value is the matched substring verbatim. -/
def readName (body : List Nat) (start : Nat) : Token :=
  let e := nameEndPos (body.drop (start + 1)) (start + 1)
  { kind := .name, start := start, endPos := e, value := some (slice body start e) }

def digitsEnd : List Nat → Nat → List Nat × Nat
| c :: rest, pos => if isDigit c then digitsEnd rest (pos + 1) else (c :: rest, pos)
| [], pos => ([], pos)

def expectedDigitMsg (c : Option Nat) : String :=
  "Invalid number, expected digit but got: " ++ printCharCode c ++ "."

/-- One-or-more digits, or the "expected digit" error at the offending
position. -/
def readDigits1 : List Nat → Nat → Except (Nat × String) (List Nat × Nat)
| c :: rest, pos =>
  if isDigit c then .ok (digitsEnd rest (pos + 1)) else .error (pos, expectedDigitMsg (some c))
| [], pos => .error (pos, expectedDigitMsg none)

/-- The integer part after an optional sign: a single `0` (a following digit
is the "unexpected digit after 0" error naming it), or `[1-9][0-9]*`. -/
def intPart : List Nat → Nat → Except (Nat × String) (List Nat × Nat)
| 48 :: d :: rest, pos =>
  if isDigit d then
    .error (pos + 1, "Invalid number, unexpected digit after 0: " ++ printCharCode (some d) ++ ".")
  else .ok (d :: rest, pos + 1)
| [48], pos => .ok ([], pos + 1)
| c :: rest, pos =>
  if 49 ≤ c ∧ c ≤ 57 then .ok (digitsEnd rest (pos + 1))
  else .error (pos, expectedDigitMsg (some c))
| [], pos => .error (pos, expectedDigitMsg none)

/-- Optional `.digits` fraction; its presence selects FLOAT. -/
def fracPart : List Nat → Nat → Except (Nat × String) (List Nat × Nat × Bool)
| 46 :: rest, pos =>
  match readDigits1 rest (pos + 1) with
  | .error er => .error er
  | .ok (l, p) => .ok (l, p, true)
| l, pos => .ok (l, pos, false)

/-- Optional `[eE][+-]?digits` exponent; its presence selects FLOAT. -/
def expPart : List Nat → Nat → Except (Nat × String) (Nat × Bool)
| e :: rest, pos =>
  if e = 69 ∨ e = 101 then
    (match rest with
     | s :: rest' =>
       if s = 43 ∨ s = 45 then
         match readDigits1 rest' (pos + 2) with
         | .error er => .error er
         | .ok (_, p) => .ok (p, true)
       else
         match readDigits1 rest (pos + 1) with
         | .error er => .error er
         | .ok (_, p) => .ok (p, true)
     | [] => .error (pos + 1, expectedDigitMsg none))
  else .ok (pos, false)
| [], pos => .ok (pos, false)

def readNumberGo (body : List Nat) (start : Nat) (l0 : List Nat) (pos0 : Nat) :
    Except (Nat × String) Token :=
  match intPart l0 pos0 with
  | .error er => .error er
  | .ok (l1, pos1) =>
    match fracPart l1 pos1 with
    | .error er => .error er
    | .ok (l2, pos2, isF) =>
      match expPart l2 pos2 with
      | .error er => .error er
      | .ok (pos3, isE) =>
        .ok { kind := if isF || isE then .float else .int, start := start, endPos := pos3,
              value := some (slice body start pos3) }

/-- Modelled from the spec: `read_number` — optional `-`, integer part,
optional fraction and exponent; the value is the exact matched substring,
sign included, unnormalized. -/
def readNumber (body : List Nat) (start : Nat) : Except (Nat × String) Token :=
  match body.drop start with
  | 45 :: rest => readNumberGo body start rest (start + 1)
  | l => readNumberGo body start l start

/-- The single-character escape table: `\" \\ \/ \b \f \n \r \t`. -/
def escMap : Nat → Option Nat
| 34 => some 34
| 47 => some 47
| 92 => some 92
| 98 => some 8
| 102 => some 12
| 110 => some 10
| 114 => some 13
| 116 => some 9
| _ => none

def hexVal (c : Nat) : Option Nat :=
  if 48 ≤ c ∧ c ≤ 57 then some (c - 48)
  else if 65 ≤ c ∧ c ≤ 70 then some (c - 55)
  else if 97 ≤ c ∧ c ≤ 102 then some (c - 87)
  else none

def hexQuad (a b c d : Nat) : Option Nat :=
  match hexVal a, hexVal b, hexVal c, hexVal d with
  | some x, some y, some z, some w => some (x * 4096 + y * 256 + z * 16 + w)
  | _, _, _, _ => none

/-- Modelled from the spec: the scanning loop of `read_string`, from just
after the opening quote, accumulating the decoded value.  Line terminators
or end of input mean "Unterminated string"; unescaped control characters,
bad escapes and bad `\uXXXX` sequences raise at the position after the
backslash, the bad `\u` error quoting the four source characters after
`\u`. -/
def readStringGo (body : List Nat) : List Nat → Nat → List Nat →
    Except (Nat × String) (Nat × List Nat)
| [], pos, _ => .error (pos, "Unterminated string.")
| c :: rest, pos, acc =>
  if c = 34 then .ok (pos + 1, acc)
  else if c = 10 ∨ c = 13 then .error (pos, "Unterminated string.")
  else if c < 32 ∧ c ≠ 9 then
    .error (pos, "Invalid character within String: " ++ printCharCode (some c) ++ ".")
  else if c = 92 then
    match rest with
    | [] => .error (pos + 1, "Invalid character escape sequence: \\.")
    | e :: rest' =>
      if e = 117 then
        match rest' with
        | a :: b :: c2 :: d :: rest'' =>
          match hexQuad a b c2 d with
          | some code => readStringGo body rest'' (pos + 6) (acc ++ [code])
          | none =>
            .error (pos + 1, "Invalid character escape sequence: \\u" ++
              renderCodes (slice body (pos + 2) (pos + 6)) ++ ".")
        | _ =>
          .error (pos + 1, "Invalid character escape sequence: \\u" ++
            renderCodes (slice body (pos + 2) (pos + 6)) ++ ".")
      else
        match escMap e with
        | some ch => readStringGo body rest' (pos + 2) (acc ++ [ch])
        | none =>
          .error (pos + 1, "Invalid character escape sequence: \\" ++ renderCodes [e] ++ ".")
  else readStringGo body rest (pos + 1) (acc ++ [c])

/-- The dispatch of `read_token` on the first significant character, given
the body's suffix there. -/
def readTokenCore (source : Source) : List Nat → Nat → Except SyntaxError Token
| [], pos => .ok { kind := .eof, start := pos, endPos := pos, value := none }
| c :: rest, pos =>
  if c < 32 ∧ c ≠ 9 ∧ c ≠ 10 ∧ c ≠ 13 then
    .error (mkSyntaxError source pos ("Invalid character " ++ printCharCode (some c) ++ "."))
  else
    match punctKind c with
    | some k => .ok { kind := k, start := pos, endPos := pos + 1, value := none }
    | none =>
      if c = 46 then
        if rest.take 2 = [46, 46] then
          .ok { kind := .spread, start := pos, endPos := pos + 3, value := none }
        else .error (mkSyntaxError source pos ("Unexpected character " ++ printCharCode (some c) ++ "."))
      else if isNameStart c then .ok (readName source.body pos)
      else if c = 45 || isDigit c then
        match readNumber source.body pos with
        | .ok t => .ok t
        | .error pd => .error (mkSyntaxError source pd.1 pd.2)
      else if c = 34 then
        match readStringGo source.body rest (pos + 1) [] with
        | .ok ev => .ok { kind := .string, start := pos, endPos := ev.1, value := some ev.2 }
        | .error pd => .error (mkSyntaxError source pd.1 pd.2)
      else .error (mkSyntaxError source pos ("Unexpected character " ++ printCharCode (some c) ++ "."))

/-- Modelled from the spec: `read_token` — skip ignored characters, then
produce EOF, a punctuator, spread, name, number or string token, or raise
"Invalid character" (control characters) / "Unexpected character". -/
def readToken (source : Source) (start : Nat) : Except SyntaxError Token :=
  readTokenCore source (skipIg false (source.body.drop start) start).1
    (skipIg false (source.body.drop start) start).2

def codesOf (s : String) : List Nat :=
  s.data.map Char.toNat

/-- `lex_one` of the test file: first token of a fresh lexer over a source
with the default display name. -/
def lexOne (s : String) : Except SyntaxError Token :=
  readToken ⟨codesOf s, "GraphQL"⟩ 0

/-- The escape decoder the round-trip claim speaks of, defined from the
claim's own words: resolve backslash escapes and `\uXXXX` sequences up to
and including the closing quote (which must be the last character). -/
def decodeBody : List Nat → Option (List Nat)
| [] => none
| c :: rest =>
  if c = 34 then (if rest = [] then some [] else none)
  else if c = 92 then
    match rest with
    | [] => none
    | e :: rest' =>
      if e = 117 then
        match rest' with
        | a :: b :: c2 :: d :: rest'' =>
          match hexQuad a b c2 d with
          | some code => (decodeBody rest'').map (fun w => code :: w)
          | none => none
        | _ => none
      else
        match escMap e with
        | some ch => (decodeBody rest').map (fun w => ch :: w)
        | none => none
  else (decodeBody rest).map (fun w => c :: w)

/-- Strip the opening quote, then decode the body through the closing
quote. -/
def decodeStringLiteral : List Nat → Option (List Nat)
| c :: rest => if c = 34 then decodeBody rest else none
| [] => none

theorem drop_succ_of_drop {body : List Nat} {pos : Nat} {c : Nat} {t : List Nat}
    (h : body.drop pos = c :: t) : body.drop (pos + 1) = t := by
  have h1 : List.drop 1 (List.drop pos body) = List.drop (pos + 1) body :=
    List.drop_drop 1 pos body
  rw [h] at h1
  simpa using h1.symm

theorem slice_cons (body : List Nat) {pos e : Nat} {c : Nat} {t : List Nat}
    (h : body.drop pos = c :: t) (he : pos < e) :
    slice body pos e = c :: slice body (pos + 1) e := by
  have h1 : body.drop (pos + 1) = t := drop_succ_of_drop h
  unfold slice
  rw [h, h1]
  have h2 : e - pos = (e - (pos + 1)) + 1 := by omega
  rw [h2, List.take_succ_cons]

theorem slice_self (body : List Nat) (pos : Nat) : slice body pos pos = [] := by
  simp [slice]

/-- The skip phase stays aligned with the body: the returned suffix is the
body's suffix at the returned position. -/
theorem skipIg_drop (body : List Nat) :
    ∀ (l : List Nat) (b : Bool) (pos : Nat), body.drop pos = l →
      body.drop (skipIg b l pos).2 = (skipIg b l pos).1 := by
  intro l
  induction l with
  | nil =>
    intro b pos h
    cases b <;> simpa [skipIg] using h
  | cons c rest ih =>
    intro b pos h
    have h1 : body.drop (pos + 1) = rest := drop_succ_of_drop h
    cases b with
    | true =>
      simp only [skipIg]
      by_cases h2 : c = 10 ∨ c = 13
      · rw [if_pos h2]; exact ih false (pos + 1) h1
      · rw [if_neg h2]; exact ih true (pos + 1) h1
    | false =>
      simp only [skipIg]
      by_cases h2 : c = 0xFEFF ∨ c = 9 ∨ c = 32 ∨ c = 44 ∨ c = 10 ∨ c = 13
      · rw [if_pos h2]; exact ih false (pos + 1) h1
      · rw [if_neg h2]
        by_cases h3 : c = 35
        · rw [if_pos h3]; exact ih true (pos + 1) h1
        · rw [if_neg h3]; exact h

/-- One-step unfolding of the decoder on a non-empty list (the equation
compiler specializes its equations by list shape; this single equation
restores the generic step). -/
theorem decodeBody_cons (c : Nat) (rest : List Nat) :
    decodeBody (c :: rest) =
      if c = 34 then (if rest = [] then some [] else none)
      else if c = 92 then
        match rest with
        | [] => none
        | e :: rest' =>
          if e = 117 then
            match rest' with
            | a :: b :: c2 :: d :: rest'' =>
              match hexQuad a b c2 d with
              | some code => (decodeBody rest'').map (fun w => code :: w)
              | none => none
            | _ => none
          else
            match escMap e with
            | some ch => (decodeBody rest').map (fun w => ch :: w)
            | none => none
      else (decodeBody rest).map (fun w => c :: w) := by
  cases rest with
  | nil => rfl
  | cons e rest' =>
    cases rest' with
    | nil => rfl
    | cons a t1 =>
      cases t1 with
      | nil => rfl
      | cons b t2 =>
        cases t2 with
        | nil => rfl
        | cons c2 t3 =>
          cases t3 with
          | nil => rfl
          | cons d t4 => rfl

/-- One-step unfolding of the string scanner on a non-empty suffix (the
equation compiler specializes its equations by suffix shape; this single
equation restores the generic step). -/
theorem readStringGo_cons (body : List Nat) (c : Nat) (rest : List Nat) (pos : Nat)
    (acc : List Nat) :
    readStringGo body (c :: rest) pos acc =
      if c = 34 then .ok (pos + 1, acc)
      else if c = 10 ∨ c = 13 then .error (pos, "Unterminated string.")
      else if c < 32 ∧ c ≠ 9 then
        .error (pos, "Invalid character within String: " ++ printCharCode (some c) ++ ".")
      else if c = 92 then
        match rest with
        | [] => .error (pos + 1, "Invalid character escape sequence: \\.")
        | e :: rest' =>
          if e = 117 then
            match rest' with
            | a :: b :: c2 :: d :: rest'' =>
              match hexQuad a b c2 d with
              | some code => readStringGo body rest'' (pos + 6) (acc ++ [code])
              | none =>
                .error (pos + 1, "Invalid character escape sequence: \\u" ++
                  renderCodes (slice body (pos + 2) (pos + 6)) ++ ".")
            | _ =>
              .error (pos + 1, "Invalid character escape sequence: \\u" ++
                renderCodes (slice body (pos + 2) (pos + 6)) ++ ".")
          else
            match escMap e with
            | some ch => readStringGo body rest' (pos + 2) (acc ++ [ch])
            | none =>
              .error (pos + 1, "Invalid character escape sequence: \\" ++ renderCodes [e] ++ ".")
      else readStringGo body rest (pos + 1) (acc ++ [c]) := by
  cases rest with
  | nil => rfl
  | cons e rest' =>
    cases rest' with
    | nil => rfl
    | cons a t1 =>
      cases t1 with
      | nil => rfl
      | cons b t2 =>
        cases t2 with
        | nil => rfl
        | cons c2 t3 =>
          cases t3 with
          | nil => rfl
          | cons d t4 => rfl

/-- The string scanner agrees with the claim's escape decoder: a successful
scan from position `pos` (just past a quote or an escape) to `e` makes the
decoder accept the consumed slice, producing exactly what the scanner
appended to its accumulator. -/
theorem readStringGo_decode (body : List Nat) :
    ∀ (n : Nat) (l : List Nat) (pos : Nat) (acc : List Nat) (e : Nat) (val : List Nat),
      l.length ≤ n → readStringGo body l pos acc = .ok (e, val) → body.drop pos = l →
      pos < e ∧ ∃ w, decodeBody (slice body pos e) = some w ∧ val = acc ++ w := by
  intro n
  induction n with
  | zero =>
    intro l pos acc e val hlen h hdrop
    cases l with
    | nil => cases h
    | cons c rest => simp at hlen
  | succ n ih =>
    intro l pos acc e val hlen h hdrop
    cases l with
    | nil => cases h
    | cons c rest =>
      have h1 : body.drop (pos + 1) = rest := drop_succ_of_drop hdrop
      rw [readStringGo_cons] at h
      by_cases hc34 : c = 34
      · subst hc34
        rw [if_pos rfl] at h
        simp only [Except.ok.injEq, Prod.mk.injEq] at h
        obtain ⟨rfl, rfl⟩ := h
        refine ⟨by omega, [], ?_, by simp⟩
        rw [slice_cons body hdrop (by omega), slice_self]
        simp [decodeBody]
      · rw [if_neg hc34] at h
        by_cases hterm : c = 10 ∨ c = 13
        · rw [if_pos hterm] at h; cases h
        · rw [if_neg hterm] at h
          by_cases hctl : c < 32 ∧ c ≠ 9
          · rw [if_pos hctl] at h; cases h
          · rw [if_neg hctl] at h
            by_cases hbs : c = 92
            · subst hbs
              rw [if_pos rfl] at h
              split at h
              · cases h
              · next e2 rest' =>
                have h2 : body.drop (pos + 2) = rest' := drop_succ_of_drop h1
                by_cases hu : e2 = 117
                · subst hu
                  rw [if_pos rfl] at h
                  split at h
                  · next a b c2 d rest'' =>
                    split at h
                    · next code hq =>
                      have h3 : body.drop (pos + 3) = b :: c2 :: d :: rest'' :=
                        drop_succ_of_drop h2
                      have h4 : body.drop (pos + 4) = c2 :: d :: rest'' :=
                        drop_succ_of_drop h3
                      have h5 : body.drop (pos + 5) = d :: rest'' :=
                        drop_succ_of_drop h4
                      have h6 : body.drop (pos + 6) = rest'' :=
                        drop_succ_of_drop h5
                      have hlen' : rest''.length ≤ n := by
                        simp only [List.length_cons] at hlen
                        omega
                      obtain ⟨hpe, w, hdec, hval⟩ := ih rest'' (pos + 6) (acc ++ [code]) e val hlen' h h6
                      refine ⟨by omega, code :: w, ?_, by simp [hval]⟩
                      rw [slice_cons body hdrop (by omega),
                        slice_cons body h1 (by omega),
                        slice_cons body h2 (by omega),
                        slice_cons body h3 (by omega),
                        slice_cons body h4 (by omega),
                        slice_cons body h5 (by omega)]
                      have hnorm : pos + 5 + 1 = pos + 6 := rfl
                      rw [decodeBody_cons]
                      simp [hq, hnorm, hdec]
                    · cases h
                  · cases h
                · rw [if_neg hu] at h
                  split at h
                  · next ch hesc =>
                    have hlen' : rest'.length ≤ n := by
                      simp only [List.length_cons] at hlen
                      omega
                    obtain ⟨hpe, w, hdec, hval⟩ := ih rest' (pos + 2) (acc ++ [ch]) e val hlen' h h2
                    refine ⟨by omega, ch :: w, ?_, by simp [hval]⟩
                    rw [slice_cons body hdrop (by omega), slice_cons body h1 (by omega)]
                    have hnorm : pos + 1 + 1 = pos + 2 := rfl
                    rw [decodeBody_cons]
                    simp [hu, hesc, hnorm, hdec]
                  · cases h
            · rw [if_neg hbs] at h
              have hlen' : rest.length ≤ n := by
                simp only [List.length_cons] at hlen
                omega
              obtain ⟨hpe, w, hdec, hval⟩ := ih rest (pos + 1) (acc ++ [c]) e val hlen' h h1
              refine ⟨by omega, c :: w, ?_, by simp [hval]⟩
              rw [slice_cons body hdrop (by omega)]
              rw [decodeBody_cons]
              simp [hc34, hbs, hdec]
def envC4 : List NamedDef :=
  [.object "O" [1] [("f", ⟨.named 2, [("x", .named 2)]⟩)],
   .interface "I" [("f", ⟨.named 2, []⟩)],
   .scalar "S"]

theorem assertOII_witness :
    assertOII envC4 "O" [("f", ⟨.named 2, [("x", .named 2)]⟩)] "I"
      [("f", ⟨.named 2, []⟩)] = .ok () ∧
    assertOII envC4 "O" [("f", ⟨.named 2, [("x", .nonNull (.named 2))]⟩)] "I"
      [("f", ⟨.named 2, []⟩)] ≠ .ok () := by
  constructor
  · refine (assertOII_ok_iff envC4 "O" _ "I" _).mpr ?_
    intro fn ifield hmem
    simp only [List.mem_singleton, Prod.mk.injEq] at hmem
    obtain ⟨rfl, rfl⟩ := hmem
    refine ⟨⟨.named 2, [("x", .named 2)]⟩, by rfl, by rfl, ?_, ?_⟩
    · intro an ia hmem'
      simp at hmem'
    · intro an oa hmem' hnone
      simp only [List.mem_singleton, Prod.mk.injEq] at hmem'
      obtain ⟨rfl, rfl⟩ := hmem'
      rfl
  · intro hok
    have := (assertOII_ok_iff envC4 "O" _ "I" _).mp hok "f" ⟨.named 2, []⟩
      (List.mem_cons_self _ _)
    obtain ⟨ofield, hof, _, _, hextra⟩ := this
    have hof' : ofield = ⟨.named 2, [("x", .nonNull (.named 2))]⟩ := by
      simpa [lookupAL] using hof.symm
    subst hof'
    have := hextra "x" (.nonNull (.named 2)) (List.mem_cons_self _ _) rfl
    cases this

theorem punctKind_not_value (c : Nat) (k : TokenKind) (h : punctKind c = some k) :
    k ≠ .name ∧ k ≠ .int ∧ k ≠ .float ∧ k ≠ .string := by
  unfold punctKind at h
  split at h
  all_goals first
  | exact Option.noConfusion h
  | (injection h with h2; subst h2;
     exact ⟨fun hx => TokenKind.noConfusion hx, fun hx => TokenKind.noConfusion hx,
       fun hx => TokenKind.noConfusion hx, fun hx => TokenKind.noConfusion hx⟩)

/-- A number token's value is by construction the matched slice, and its
kind is INT or FLOAT. -/
theorem readNumberGo_value (body : List Nat) (start : Nat) (l0 : List Nat) (pos0 : Nat)
    (t : Token) (h : readNumberGo body start l0 pos0 = .ok t) :
    t.value = some (slice body t.start t.endPos) ∧ (t.kind = .int ∨ t.kind = .float) := by
  cases h1 : intPart l0 pos0 with
  | error er => exact absurd h (by simp [readNumberGo, h1])
  | ok r1 =>
    obtain ⟨l1, pos1⟩ := r1
    cases h2 : fracPart l1 pos1 with
    | error er => exact absurd h (by simp [readNumberGo, h1, h2])
    | ok r2 =>
      obtain ⟨l2, pos2, isF⟩ := r2
      cases h3 : expPart l2 pos2 with
      | error er => exact absurd h (by simp [readNumberGo, h1, h2, h3])
      | ok r3 =>
        obtain ⟨pos3, isE⟩ := r3
        simp only [readNumberGo, h1, h2, h3, Except.ok.injEq] at h
        subst h
        refine ⟨rfl, ?_⟩
        cases isF <;> cases isE <;> simp

theorem readNumber_value (body : List Nat) (start : Nat) (t : Token)
    (h : readNumber body start = .ok t) :
    t.value = some (slice body t.start t.endPos) ∧ (t.kind = .int ∨ t.kind = .float) := by
  unfold readNumber at h
  split at h
  · exact readNumberGo_value _ _ _ _ _ h
  · exact readNumberGo_value _ _ _ _ _ h

/-- C5 on the dispatch core: see `token_value_round_trip`. -/
theorem readTokenCore_ok_spec (source : Source) (restAfter : List Nat) (pos : Nat)
    (hdrop : source.body.drop pos = restAfter) (tok : Token)
    (h : readTokenCore source restAfter pos = .ok tok) :
    ((tok.kind = .name ∨ tok.kind = .int ∨ tok.kind = .float) →
      tok.value = some (slice source.body tok.start tok.endPos)) ∧
    (tok.kind = .string →
      ∃ v, tok.value = some v ∧
        decodeStringLiteral (slice source.body tok.start tok.endPos) = some v) := by
  cases restAfter with
  | nil =>
    simp only [readTokenCore, Except.ok.injEq] at h
    subst h
    constructor
    · intro hk
      rcases hk with hk | hk | hk <;> simp at hk
    · intro hk
      simp at hk
  | cons c rest =>
    simp only [readTokenCore] at h
    split at h
    · cases h
    · split at h
      · next k hpk =>
        simp only [Except.ok.injEq] at h
        subst h
        obtain ⟨hk1, hk2, hk3, hk4⟩ := punctKind_not_value c k hpk
        constructor
        · intro hk
          rcases hk with hk | hk | hk
          · exact absurd hk hk1
          · exact absurd hk hk2
          · exact absurd hk hk3
        · intro hk
          exact absurd hk hk4
      · split at h
        · split at h
          · simp only [Except.ok.injEq] at h
            subst h
            constructor
            · intro hk
              rcases hk with hk | hk | hk <;> simp at hk
            · intro hk
              simp at hk
          · cases h
        · split at h
          · simp only [Except.ok.injEq] at h
            subst h
            constructor
            · intro _
              rfl
            · intro hk
              simp [readName] at hk
          · split at h
            · split at h
              · next t hnum =>
                simp only [Except.ok.injEq] at h
                subst h
                obtain ⟨hval, hkind⟩ := readNumber_value source.body pos _ hnum
                refine ⟨fun _ => hval, ?_⟩
                intro hk
                rcases hkind with hk2 | hk2 <;> simp [hk2] at hk
              · cases h
            · split at h
              · next hc34 =>
                split at h
                · next ev hsg =>
                  simp only [Except.ok.injEq] at h
                  subst h
                  constructor
                  · intro hk
                    rcases hk with hk | hk | hk <;> simp at hk
                  · intro _
                    subst hc34
                    have h1 : source.body.drop (pos + 1) = rest := drop_succ_of_drop hdrop
                    obtain ⟨hpe, w, hdec, hval⟩ :=
                      readStringGo_decode source.body rest.length rest (pos + 1) [] ev.1 ev.2
                        (le_refl _) (by rw [← hsg]) h1
                    refine ⟨ev.2, rfl, ?_⟩
                    have hsl : slice source.body pos ev.1 =
                        34 :: slice source.body (pos + 1) ev.1 :=
                      slice_cons source.body hdrop (by omega)
                    rw [hsl]
                    simp only [decodeStringLiteral, if_pos rfl]
                    rw [hdec, hval]
                    simp
                · cases h
              · cases h

/-- C5: every token the lexer produces satisfies the round-trip property:
for NAME, INT and FLOAT tokens the value is exactly `body[start:end]`, and
for STRING tokens escape-decoding `body[start:end]` (stripping the quotes
and resolving backslash and `\uXXXX` escapes) yields the value. -/
theorem token_value_round_trip (source : Source) (start : Nat) (tok : Token)
    (h : readToken source start = .ok tok) :
    ((tok.kind = .name ∨ tok.kind = .int ∨ tok.kind = .float) →
      tok.value = some (slice source.body tok.start tok.endPos)) ∧
    (tok.kind = .string →
      ∃ v, tok.value = some v ∧
        decodeStringLiteral (slice source.body tok.start tok.endPos) = some v) := by
  have hdropR : source.body.drop ((skipIg false (source.body.drop start) start).2) =
      (skipIg false (source.body.drop start) start).1 :=
    skipIg_drop source.body (source.body.drop start) false start rfl
  exact readTokenCore_ok_spec source _ _ hdropR tok h

theorem token_value_round_trip_witness :
    lexOne "\"ab\\n\"" = .ok ⟨.string, 0, 6, some [97, 98, 10]⟩ ∧
    (∃ v, (⟨.string, 0, 6, some [97, 98, 10]⟩ : Token).value = some v ∧
      decodeStringLiteral (slice (codesOf "\"ab\\n\"") 0 6) = some v) ∧
    lexOne "foo" = .ok ⟨.name, 0, 3, some [102, 111, 111]⟩ ∧
    (⟨.name, 0, 3, some [102, 111, 111]⟩ : Token).value =
      some (slice (codesOf "foo") 0 3) := by
  refine ⟨rfl, ?_, rfl, ?_⟩
  · exact (token_value_round_trip ⟨codesOf "\"ab\\n\"", "GraphQL"⟩ 0 _ rfl).2 rfl
  · exact (token_value_round_trip ⟨codesOf "foo", "GraphQL"⟩ 0 _ rfl).1 (Or.inl rfl)

theorem mkSyntaxError_message (s : Source) (p : Nat) (d : String) :
    (mkSyntaxError s p d).message = "Syntax Error " ++ s.name ++ " (" ++
      Nat.repr (mkSyntaxError s p d).line ++ ":" ++ Nat.repr (mkSyntaxError s p d).column ++
      ") " ++ (mkSyntaxError s p d).description ++ "\n\n" ++
      highlightSourceAtLocation s (mkSyntaxError s p d).line (mkSyntaxError s p d).column := rfl

theorem readTokenCore_error_message (source : Source) (restAfter : List Nat) (pos : Nat)
    (err : SyntaxError) (h : readTokenCore source restAfter pos = .error err) :
    err.message = "Syntax Error " ++ source.name ++ " (" ++ Nat.repr err.line ++ ":" ++
      Nat.repr err.column ++ ") " ++ err.description ++ "\n\n" ++
      highlightSourceAtLocation source err.line err.column := by
  cases restAfter with
  | nil => cases h
  | cons c rest =>
    simp only [readTokenCore] at h
    split at h
    · simp only [Except.error.injEq] at h
      subst h
      exact mkSyntaxError_message _ _ _
    · split at h
      · cases h
      · split at h
        · split at h
          · cases h
          · simp only [Except.error.injEq] at h
            subst h
            exact mkSyntaxError_message _ _ _
        · split at h
          · cases h
          · split at h
            · split at h
              · cases h
              · simp only [Except.error.injEq] at h
                subst h
                exact mkSyntaxError_message _ _ _
            · split at h
              · split at h
                · cases h
                · simp only [Except.error.injEq] at h
                  subst h
                  exact mkSyntaxError_message _ _ _
              · simp only [Except.error.injEq] at h
                subst h
                exact mkSyntaxError_message _ _ _

/-- C6: every lexer syntax error message is the rendered
`Syntax Error <source-name> (<line>:<col>) <description>`, a blank line, and
the highlighted snippet (context lines with right-aligned 1-based numbers
and the caret line under the column); in particular, the whitespace test's
input renders exactly the expected message with the caret under the `?`. -/
theorem syntax_error_rendering :
    (∀ (source : Source) (start : Nat) (err : SyntaxError),
      readToken source start = .error err →
      err.message = "Syntax Error " ++ source.name ++ " (" ++ Nat.repr err.line ++ ":" ++
        Nat.repr err.column ++ ") " ++ err.description ++ "\n\n" ++
        highlightSourceAtLocation source err.line err.column) ∧
    (∃ err, lexOne "\n\n    ?\n\n\n" = .error err ∧
      err.message =
        "Syntax Error GraphQL (3:5) Unexpected character \"?\".\n\n2: \n3:     ?\n       ^\n4: \n") := by
  constructor
  · intro source start err h
    exact readTokenCore_error_message source _ _ err h
  · exact ⟨mkSyntaxError ⟨codesOf "\n\n    ?\n\n\n", "GraphQL"⟩ 6 "Unexpected character \"?\".",
      rfl, by decide⟩

theorem syntax_error_rendering_witness :
    (mkSyntaxError ⟨codesOf "?", "GraphQL"⟩ 0 "Unexpected character \"?\".").message =
      "Syntax Error " ++ "GraphQL" ++ " (" ++ Nat.repr 1 ++ ":" ++ Nat.repr 1 ++ ") " ++
      "Unexpected character \"?\"." ++ "\n\n" ++
      highlightSourceAtLocation ⟨codesOf "?", "GraphQL"⟩ 1 1 :=
  syntax_error_rendering.1 ⟨codesOf "?", "GraphQL"⟩ 0 _ rfl

/-- C7: lexing `"00"` raises the syntax error at line 1, column 2 whose
message contains `Invalid number, unexpected digit after 0: "0".` — and in
general the integer scanner rejects any digit immediately following a
leading `0`, naming the offending digit. -/
theorem lex_zero_zero_error :
    (∃ err, lexOne "00" = .error err ∧ err.line = 1 ∧ err.column = 2 ∧
      err.description = "Invalid number, unexpected digit after 0: \"0\"." ∧
      ("Invalid number, unexpected digit after 0: \"0\".").data <:+: err.message.data) ∧
    (∀ (d : Nat) (rest : List Nat) (pos : Nat), isDigit d = true →
      intPart (48 :: d :: rest) pos =
        .error (pos + 1, "Invalid number, unexpected digit after 0: " ++
          printCharCode (some d) ++ ".")) := by
  constructor
  · refine ⟨mkSyntaxError ⟨codesOf "00", "GraphQL"⟩ 1
      "Invalid number, unexpected digit after 0: \"0\".", rfl, rfl, rfl, rfl, by decide⟩
  · intro d rest pos hd
    simp [intPart, hd]

theorem lex_zero_zero_witness :
    intPart [48, 48] 0 = .error (1, "Invalid number, unexpected digit after 0: \"0\".") := by
  have h := lex_zero_zero_error.2 48 [] 0 rfl
  exact h

theorem reducer_duplicate_name_witness :
    reduceStep envDup 1 [("X", 0)] (.typ (some (.named 0))) = .ok [("X", 0)] ∧
    reduceStep envDup 1 [("X", 0)] (.typ (some (.named 1))) =
      .error (.assertion (uniqueMsg "X")) := by
  constructor
  · exact (reducer_duplicate_name_check envDup 0 [("X", 0)] 0 0 (.scalar "X") rfl rfl).1 rfl
  · exact ((reducer_duplicate_name_check envDup 0 [("X", 0)] 1 0 (.enum "X") rfl rfl).2
      (by decide)).1

/-! ## UniqueFragmentNamesRule (`graphql/validation/rules/unique_fragment_names.py`)

The rule's own logic (`__init__`, `enter_operation_definition`,
`enter_fragment_definition`) is embedded from the source file.  The visitor
harness and `report_error` (which appends the error to the context's list and
never raises) are not part of the snapshot and are modelled from the spec.
AST nodes carry a numeric identity `nid` mirroring Python object identity, so
distinct name nodes with equal values stay distinguishable. -/

/-- A `NameNode`: its string value and the node's object identity. -/
structure NameNode where
  value : String
  nid : Nat

/-- The part of a `FragmentDefinitionNode` the rule reads: `node.name`. -/
structure FragmentDef where
  nameNode : NameNode

/-- A top-level definition of a document, as far as this rule looks at it. -/
inductive DefinitionNode
| operation (nid : Nat)
| fragment (f : FragmentDef)

/-- A reported `GraphQLError`: message and the node list passed to it. -/
structure GraphQLErrorV where
  message : String
  nodes : List NameNode

/-- The visitor action an enter hook returns: `SKIP` (children not visited)
or ordinary descent. -/
inductive VisitAction
| skipNode
| visitChildren

/-- `duplicate_fragment_name_message`. -/
def duplicateFragmentNameMessage (fragName : String) : String :=
  "There can only be one fragment named \x27" ++ fragName ++ "\x27."

/-- `enter_operation_definition`: touches nothing and returns `SKIP`. -/
def enterOperationDefinition (known : List (String × NameNode))
    (errors : List GraphQLErrorV) :
    List (String × NameNode) × List GraphQLErrorV × VisitAction :=
  (known, errors, .skipNode)

/-- `enter_fragment_definition`: a known name reports the duplicate error with
exactly the two nodes `[known_fragment_names[name], node.name]` (the map is
left unchanged); an unknown name is recorded; either way `SKIP` is returned.
`report_error` is modelled from the spec as appending to the error list. -/
def enterFragmentDefinition (known : List (String × NameNode))
    (errors : List GraphQLErrorV) (node : FragmentDef) :
    List (String × NameNode) × List GraphQLErrorV × VisitAction :=
  match lookupAL known node.nameNode.value with
  | some firstNode =>
    (known,
     errors ++ [⟨duplicateFragmentNameMessage node.nameNode.value,
                 [firstNode, node.nameNode]⟩],
     .skipNode)
  | none =>
    (known ++ [(node.nameNode.value, node.nameNode)], errors, .skipNode)

/-- Modelled from the spec: the validation visitor calls the matching enter
hook on each top-level definition in document order; since both hooks return
`SKIP`, no child of a definition is ever visited, so the whole run is this
fold.  The rule never raises: the fold is total. -/
def visitDocument : List (String × NameNode) → List GraphQLErrorV →
    List DefinitionNode → List (String × NameNode) × List GraphQLErrorV
| known, errors, [] => (known, errors)
| known, errors, .operation _ :: rest =>
  visitDocument (enterOperationDefinition known errors).1
    (enterOperationDefinition known errors).2.1 rest
| known, errors, .fragment f :: rest =>
  visitDocument (enterFragmentDefinition known errors f).1
    (enterFragmentDefinition known errors f).2.1 rest

/-- The fragment definitions of a document, in document order. -/
def fragDefs : List DefinitionNode → List FragmentDef
| [] => []
| .operation _ :: rest => fragDefs rest
| .fragment f :: rest => f :: fragDefs rest

/-- The name node of the first fragment definition carrying `name`. -/
def firstNamed (name : String) : List FragmentDef → Option NameNode
| [] => none
| f :: rest => if f.nameNode.value = name then some f.nameNode else firstNamed name rest

theorem lookupAL_append {β : Type} (l1 l2 : List (String × β)) (n : String) :
    lookupAL (l1 ++ l2) n =
      match lookupAL l1 n with
      | some v => some v
      | none => lookupAL l2 n := by
  induction l1 with
  | nil => simp [lookupAL]
  | cons p rest ih =>
    obtain ⟨k, v⟩ := p
    by_cases hk : k = n
    · simp [lookupAL, hk]
    · simp [lookupAL, hk, ih]

theorem visitDocument_op (known : List (String × NameNode)) (errors : List GraphQLErrorV)
    (nid : Nat) (rest : List DefinitionNode) :
    visitDocument known errors (.operation nid :: rest) = visitDocument known errors rest := rfl

theorem visitDocument_frag_dup (known : List (String × NameNode))
    (errors : List GraphQLErrorV) (f : FragmentDef) (rest : List DefinitionNode)
    (firstN : NameNode) (hl : lookupAL known f.nameNode.value = some firstN) :
    visitDocument known errors (.fragment f :: rest) =
      visitDocument known
        (errors ++ [⟨duplicateFragmentNameMessage f.nameNode.value, [firstN, f.nameNode]⟩])
        rest := by
  simp [visitDocument, enterFragmentDefinition, hl]

theorem visitDocument_frag_new (known : List (String × NameNode))
    (errors : List GraphQLErrorV) (f : FragmentDef) (rest : List DefinitionNode)
    (hl : lookupAL known f.nameNode.value = none) :
    visitDocument known errors (.fragment f :: rest) =
      visitDocument (known ++ [(f.nameNode.value, f.nameNode)]) errors rest := by
  simp [visitDocument, enterFragmentDefinition, hl]

/-- After the run, looking a name up in `known_fragment_names` falls back on
the document's first fragment definition with that name. -/
theorem visitDocument_lookup (doc : List DefinitionNode) :
    ∀ (known : List (String × NameNode)) (errors : List GraphQLErrorV) (name : String),
    lookupAL (visitDocument known errors doc).1 name =
      match lookupAL known name with
      | some n => some n
      | none => firstNamed name (fragDefs doc) := by
  induction doc with
  | nil =>
    intro known errors name
    cases hl : lookupAL known name <;> simp [visitDocument, hl, fragDefs, firstNamed]
  | cons d rest ih =>
    intro known errors name
    cases d with
    | operation nid =>
      rw [visitDocument_op, ih]
      rfl
    | fragment f =>
      cases hl : lookupAL known f.nameNode.value with
      | some firstN =>
        rw [visitDocument_frag_dup known errors f rest firstN hl, ih]
        by_cases he : f.nameNode.value = name
        · subst he
          simp [hl]
        · cases hln : lookupAL known name <;> simp [hln, fragDefs, firstNamed, he]
      | none =>
        rw [visitDocument_frag_new known errors f rest hl, ih, lookupAL_append]
        by_cases he : f.nameNode.value = name
        · subst he
          simp [hl, lookupAL, fragDefs, firstNamed]
        · cases hln : lookupAL known name <;>
            simp [hln, lookupAL, fragDefs, firstNamed, he]

/-- Every error the run adds comes from a fragment definition of the document
and pairs the first occurrence of its name (or, if the name was already in the
starting map, that stored node) with the duplicate's own name node. -/
theorem visitDocument_errors_mem (doc : List DefinitionNode) :
    ∀ (known : List (String × NameNode)) (errors : List GraphQLErrorV)
      (e : GraphQLErrorV), e ∈ (visitDocument known errors doc).2 →
    e ∈ errors ∨ ∃ f firstN, DefinitionNode.fragment f ∈ doc ∧
      (∀ n, lookupAL known f.nameNode.value = some n → firstN = n) ∧
      (lookupAL known f.nameNode.value = none →
        firstNamed f.nameNode.value (fragDefs doc) = some firstN) ∧
      e.message = duplicateFragmentNameMessage f.nameNode.value ∧
      e.nodes = [firstN, f.nameNode] := by
  induction doc with
  | nil =>
    intro known errors e he
    exact Or.inl he
  | cons d rest ih =>
    intro known errors e he
    cases d with
    | operation nid =>
      rw [visitDocument_op] at he
      rcases ih known errors e he with hL | ⟨f, firstN, hmem, hsome, hnone, hmsg, hnodes⟩
      · exact Or.inl hL
      · exact Or.inr ⟨f, firstN, List.mem_cons_of_mem _ hmem, hsome, hnone, hmsg, hnodes⟩
    | fragment f0 =>
      cases hl : lookupAL known f0.nameNode.value with
      | some firstN0 =>
        rw [visitDocument_frag_dup known errors f0 rest firstN0 hl] at he
        rcases ih known _ e he with hL | ⟨f, firstN, hmem, hsome, hnone, hmsg, hnodes⟩
        · rcases List.mem_append.mp hL with hL | hL
          · exact Or.inl hL
          · have he0 : e = ⟨duplicateFragmentNameMessage f0.nameNode.value,
                [firstN0, f0.nameNode]⟩ := by simpa using hL
            subst he0
            refine Or.inr ⟨f0, firstN0, List.mem_cons_self _ _, ?_, ?_, rfl, rfl⟩
            · intro n hn
              rw [hl, Option.some.injEq] at hn
              exact hn
            · intro hn0
              rw [hl] at hn0
              exact Option.noConfusion hn0
        · refine Or.inr ⟨f, firstN, List.mem_cons_of_mem _ hmem, hsome, ?_, hmsg, hnodes⟩
          intro hn
          have hne : f0.nameNode.value ≠ f.nameNode.value := by
            intro hEq
            rw [hEq, hn] at hl
            exact Option.noConfusion hl
          have hrest := hnone hn
          simpa [fragDefs, firstNamed, hne] using hrest
      | none =>
        rw [visitDocument_frag_new known errors f0 rest hl] at he
        rcases ih _ errors e he with hL | ⟨f, firstN, hmem, hsome, hnone, hmsg, hnodes⟩
        · exact Or.inl hL
        · refine Or.inr ⟨f, firstN, List.mem_cons_of_mem _ hmem, ?_, ?_, hmsg, hnodes⟩
          · intro n hn
            exact hsome n (by simp [lookupAL_append, hn])
          · intro hn0
            by_cases hEq : f0.nameNode.value = f.nameNode.value
            · have hk2 : lookupAL (known ++ [(f0.nameNode.value, f0.nameNode)])
                  f.nameNode.value = some f0.nameNode := by
                simp [lookupAL_append, hn0, lookupAL, hEq]
              have hfn : firstN = f0.nameNode := hsome _ hk2
              subst hfn
              simp [fragDefs, firstNamed, hEq]
            · have hk2 : lookupAL (known ++ [(f0.nameNode.value, f0.nameNode)])
                  f.nameNode.value = none := by
                simp [lookupAL_append, hn0, lookupAL, hEq]
              have hrest := hnone hk2
              simpa [fragDefs, firstNamed, hEq] using hrest

/-- C10: `UniqueFragmentNamesRule` keeps, for each fragment name, the name
node of the first fragment definition encountered: both enter hooks always
return `SKIP`; after the run the recorded node for every name is exactly the
document's first occurrence; and every reported error carries exactly the two
nodes `[first occurrence's name node, duplicate's name node]` with the
duplicate-fragment message — so every later duplicate is paired with the
first occurrence, which is never displaced. -/
theorem unique_fragment_names_rule_spec (doc : List DefinitionNode) :
    (∀ (known : List (String × NameNode)) (errors : List GraphQLErrorV),
      (enterOperationDefinition known errors).2.2 = VisitAction.skipNode ∧
      ∀ node, (enterFragmentDefinition known errors node).2.2 = VisitAction.skipNode) ∧
    (∀ name, lookupAL (visitDocument [] [] doc).1 name = firstNamed name (fragDefs doc)) ∧
    (∀ e, e ∈ (visitDocument [] [] doc).2 → ∃ f firstN,
      DefinitionNode.fragment f ∈ doc ∧
      firstNamed f.nameNode.value (fragDefs doc) = some firstN ∧
      e.message = duplicateFragmentNameMessage f.nameNode.value ∧
      e.nodes = [firstN, f.nameNode]) := by
  refine ⟨?_, ?_, ?_⟩
  · intro known errors
    refine ⟨rfl, ?_⟩
    intro node
    cases hl : lookupAL known node.nameNode.value <;>
      simp [enterFragmentDefinition, hl]
  · intro name
    have h := visitDocument_lookup doc [] [] name
    simpa [lookupAL] using h
  · intro e he
    rcases visitDocument_errors_mem doc [] [] e he with hL | ⟨f, firstN, hmem, _, hnone, hmsg, hnodes⟩
    · exact absurd hL (List.not_mem_nil e)
    · exact ⟨f, firstN, hmem, hnone rfl, hmsg, hnodes⟩

/-- A document with three fragments named `A` (ids 1, 3, 5), one named `B`
and an operation in between. -/
def docC10 : List DefinitionNode :=
  [.fragment ⟨⟨"A", 1⟩⟩, .operation 2, .fragment ⟨⟨"A", 3⟩⟩,
   .fragment ⟨⟨"B", 4⟩⟩, .fragment ⟨⟨"A", 5⟩⟩]

theorem unique_fragment_names_rule_witness :
    lookupAL (visitDocument [] [] docC10).1 "A" = firstNamed "A" (fragDefs docC10) ∧
    firstNamed "A" (fragDefs docC10) = some ⟨"A", 1⟩ ∧
    (visitDocument [] [] docC10).2 =
      [⟨duplicateFragmentNameMessage "A", [⟨"A", 1⟩, ⟨"A", 3⟩]⟩,
       ⟨duplicateFragmentNameMessage "A", [⟨"A", 1⟩, ⟨"A", 5⟩]⟩] :=
  ⟨(unique_fragment_names_rule_spec docC10).2.1 "A", rfl, rfl⟩

end GraphQLCoreV
